import Mathlib

/-
Formal model of the object-graph persistence engine in
src/tv/portable/storedatabase.py (the Miro "store database" converter).

Python objects are modelled by a heap: an association list from addresses
(standing for `id(object)`) to objects carrying a class tag and a field
dictionary.  Live domain objects and flat `SavableObject` records share the
same shape: for a live object `cls` is its runtime class name and `fields`
its attribute dictionary; for a `SavableObject`, `cls` is `classString` and
`fields` is `savedData`.  Mutation (`setattr`, `savedData[name] = value`) is
modelled by consing an updated binding, so lookups see the newest entry.

Recursion depth is modelled by explicit fuel (Python's call stack is finite;
the spec itself notes the host call-stack limit).  Exceptions are modelled by
`Except PyErr`.

The `schema` module (schema.py) is not among the provided sources; only its
client, storedatabase.py, is.  Definitions for it below are marked
"Modelled from the spec" and follow the spec's description of the schema
model (section 3) and validation (section 4.2).
-/

/-- Addresses standing for Python object identity (`id(object)`). -/
abbrev Addr := Nat

/-- Modelled from the spec: the scalar kinds a Scalar schema node can carry
(spec section 3: integer, text, boolean, binary; the float kind is omitted as
no claim concerns floating point). -/
inductive ScalarKind where
  | int
  | text
  | bool
  | binary
deriving DecidableEq, Repr

/-- A Python value as seen by the converter: `None`, scalars, lists,
dicts (association lists in insertion order) and references to heap
objects. -/
inductive Value where
  | none
  | int (i : Int)
  | text (s : String)
  | bool (b : Bool)
  | binary (bs : List Nat)
  | list (xs : List Value)
  | dict (entries : List (Value × Value))
  | ref (a : Addr)

mutual

/-- Boolean equality on values (automatic deriving does not handle the
nesting through `List`). -/
def vbeq : Value → Value → Bool
  | Value.none, Value.none => true
  | Value.int i, Value.int j => i == j
  | Value.text s, Value.text t => s == t
  | Value.bool a, Value.bool b => a == b
  | Value.binary a, Value.binary b => a == b
  | Value.list xs, Value.list ys => vbeqList xs ys
  | Value.dict es, Value.dict fs => vbeqEntries es fs
  | Value.ref a, Value.ref b => a == b
  | _, _ => false

/-- Pointwise boolean equality on value lists. -/
def vbeqList : List Value → List Value → Bool
  | [], [] => true
  | x :: xs, y :: ys => vbeq x y && vbeqList xs ys
  | _, _ => false

/-- Pointwise boolean equality on dict entry lists. -/
def vbeqEntries : List (Value × Value) → List (Value × Value) → Bool
  | [], [] => true
  | (k, v) :: es, (k', v') :: fs => vbeq k k' && vbeq v v' && vbeqEntries es fs
  | _, _ => false

end

mutual

theorem vbeq_iff : ∀ a b : Value, vbeq a b = true ↔ a = b
  | Value.none, b => by cases b <;> simp [vbeq]
  | Value.int i, b => by cases b <;> simp [vbeq]
  | Value.text s, b => by cases b <;> simp [vbeq]
  | Value.bool x, b => by cases b <;> simp [vbeq]
  | Value.binary x, b => by cases b <;> simp [vbeq]
  | Value.ref a, b => by cases b <;> simp [vbeq]
  | Value.list xs, b => by
    cases b <;> simp [vbeq]
    exact vbeqList_iff xs _
  | Value.dict es, b => by
    cases b <;> simp [vbeq]
    exact vbeqEntries_iff es _

theorem vbeqList_iff : ∀ xs ys : List Value, vbeqList xs ys = true ↔ xs = ys
  | [], ys => by cases ys <;> simp [vbeqList]
  | x :: xs, [] => by simp [vbeqList]
  | x :: xs, y :: ys => by
    simp [vbeqList, vbeq_iff x y, vbeqList_iff xs ys]

theorem vbeqEntries_iff :
    ∀ es fs : List (Value × Value), vbeqEntries es fs = true ↔ es = fs
  | [], fs => by cases fs <;> simp [vbeqEntries]
  | e :: es, [] => by cases e; simp [vbeqEntries]
  | (k, v) :: es, (k', v') :: fs => by
    simp [vbeqEntries, vbeq_iff k k', vbeq_iff v v', vbeqEntries_iff es fs,
      Prod.ext_iff]

end

instance : DecidableEq Value := fun a b => decidable_of_iff _ (vbeq_iff a b)

/-- A heap object: class tag plus field dictionary.  For live objects the
tag is the runtime class name and `fields` the attribute dict; for
`SavableObject`s the tag is `classString` and `fields` is `savedData`. -/
structure Obj where
  cls : String
  fields : List (String × Value)
deriving DecidableEq

/-- A heap: association list from address to object; the first binding for
an address is the current one. -/
abbrev Heap := List (Addr × Obj)

/-- Modelled from the spec: schema nodes (spec section 3): Scalar with a
kind and a none-allowed flag, Sequence with one child, Mapping with key and
value children, ObjectReference with a target class. -/
inductive SchemaItem where
  | simple (kind : ScalarKind) (noneOk : Bool)
  | list (child : SchemaItem)
  | dict (key : SchemaItem) (value : SchemaItem)
  | object (klass : String)
deriving DecidableEq, Repr

/-- Modelled from the spec: an ObjectSchema (spec section 3): a runtime
class (`klass`, named by its class name), a stable class-identifier string
(`classString`) and the ordered field list. -/
structure ObjectSchema where
  klass : String
  classString : String
  fields : List (String × SchemaItem)
deriving DecidableEq, Repr

/-- Python exceptions the modelled code can raise. -/
inductive PyErr where
  | validationError (msg : String)
  | validationWarning (msg : String)
  | attributeError (name : String)
  | nameError (name : String)
  | keyError (key : String)
  | typeError (msg : String)
  | ioError (path : String)
  | recursionError
  | valueError (msg : String)
deriving DecidableEq, Repr

/-- Update a field dictionary: replace the binding in place if the key is
present, append otherwise (Python dict assignment). -/
def dictSet (fields : List (String × Value)) (name : String) (v : Value) :
    List (String × Value) :=
  match fields with
  | [] => [(name, v)]
  | (n, w) :: rest =>
    if n = name then (n, v) :: rest else (n, w) :: dictSet rest name v

/-- Update a value dictionary: replace the binding if a key equal to the
new one is present, append otherwise (`rv[newKey] = newValue`). -/
def vdictSet (entries : List (Value × Value)) (k v : Value) :
    List (Value × Value) :=
  match entries with
  | [] => [(k, v)]
  | (k', v') :: rest =>
    if k' = k then (k', v) :: rest else (k', v') :: vdictSet rest k v

/-- The lookup tables built by `ConverterBase.__init__` (lines 46-52):
`stringsToClasses`, `classesToStrings` and `objectSchemaLookup`, each a
Python dict. -/
structure Lookups where
  stringsToClasses : List (String × String)
  classesToStrings : List (String × String)
  objectSchemaLookup : List (String × ObjectSchema)
deriving DecidableEq, Repr

/-- Insert into an association-list dict (replace-or-append), mirroring
Python dict item assignment. -/
def alSet {α β : Type} [DecidableEq α] (m : List (α × β)) (k : α) (v : β) :
    List (α × β) :=
  match m with
  | [] => [(k, v)]
  | (k', v') :: rest =>
    if k' = k then (k', v) :: rest else (k', v') :: alSet rest k v

/-- The loop body of `ConverterBase.__init__` (lines 49-52). -/
def buildLookups (objectSchemas : List ObjectSchema) : Lookups :=
  objectSchemas.foldl
    (fun lk os =>
      { stringsToClasses := alSet lk.stringsToClasses os.classString os.klass
        classesToStrings := alSet lk.classesToStrings os.klass os.classString
        objectSchemaLookup := alSet lk.objectSchemaLookup os.klass os })
    { stringsToClasses := [], classesToStrings := [], objectSchemaLookup := [] }

/-- `ConverterBase.__init__` (lines 37-52).  When `objectSchemas` is `None`
the body executes `objectSchemas = schema.objectSchemas` (line 44), but the
module imports the schema module as `schema_mod` (line 3) and never binds
the name `schema` at module scope, so evaluating the identifier `schema`
raises `NameError`. -/
def converterInit (objectSchemas : Option (List ObjectSchema)) :
    Except PyErr Lookups :=
  match objectSchemas with
  | Option.none => Except.error (PyErr.nameError "schema")
  | Option.some oss => Except.ok (buildLookups oss)

mutual

/-- Modelled from the spec: `validate(value, schemaNode)` (spec section
4.2).  A Scalar node accepts its declared kind, or `None` when the
none-allowed flag is set; a Sequence node validates element-wise; a Mapping
node validates each key and value; an ObjectReference node is satisfied by
any object whose class resolves in the schema model.  The boolean result
stands for "returns normally" vs "raises ValidationError". -/
def validate (lk : Lookups) (h : Heap) : Value → SchemaItem → Bool
  | Value.none, SchemaItem.simple _ noneOk => noneOk
  | Value.int _, SchemaItem.simple ScalarKind.int _ => true
  | Value.text _, SchemaItem.simple ScalarKind.text _ => true
  | Value.bool _, SchemaItem.simple ScalarKind.bool _ => true
  | Value.binary _, SchemaItem.simple ScalarKind.binary _ => true
  | Value.list xs, SchemaItem.list c => validateList lk h xs c
  | Value.dict es, SchemaItem.dict ks vs => validateDict lk h es ks vs
  | Value.ref a, SchemaItem.object _ =>
    match h.lookup a with
    | Option.some o => (lk.objectSchemaLookup.lookup o.cls).isSome
    | Option.none => false
  | _, _ => false

/-- Element-wise validation of a sequence. -/
def validateList (lk : Lookups) (h : Heap) : List Value → SchemaItem → Bool
  | [], _ => true
  | x :: xs, c => validate lk h x c && validateList lk h xs c

/-- Key/value-wise validation of a mapping. -/
def validateDict (lk : Lookups) (h : Heap) :
    List (Value × Value) → SchemaItem → SchemaItem → Bool
  | [], _, _ => true
  | (k, v) :: es, ks, vs =>
    validate lk h k ks && validate lk h v vs && validateDict lk h es ks vs

end

/-- The direction of a conversion: `SavableConverter` (save) or
`SavableUnconverter` (restore). -/
inductive Dir where
  | save
  | restore
deriving DecidableEq, Repr

/-- A loose rendering of Python's `"%s" % value`, used only to build the
debug `path` strings threaded through the converter. -/
def render : Value → String
  | Value.none => "None"
  | Value.int i => toString i
  | Value.text s => s
  | Value.bool b => toString b
  | Value.binary _ => "<binary>"
  | Value.list _ => "[...]"
  | Value.dict _ => "\x7b...\x7d"
  | Value.ref a => "<object " ++ toString a ++ ">"

/-- A loose rendering of `"%s" % schema` for message strings. -/
def renderSchema : SchemaItem → String
  | SchemaItem.simple _ _ => "<SchemaSimpleItem>"
  | SchemaItem.list _ => "<SchemaList>"
  | SchemaItem.dict _ _ => "<SchemaDict>"
  | SchemaItem.object k => "<SchemaObject " ++ k ++ ">"

/-- `preValidate` (lines 148-152, overridden by `SavableConverter` at lines
218-219): the save direction validates the source datum, the restore
direction's `preValidate` is a no-op. -/
def preValidate (dir : Dir) (lk : Lookups) (h : Heap) (data : Value)
    (s : SchemaItem) : Bool :=
  match dir with
  | Dir.save => validate lk h data s
  | Dir.restore => true

/-- `postValidate` (lines 154-158, overridden by `SavableUnconverter` at
lines 249-250): the restore direction validates the converted (live) datum
against the target heap, the save direction's `postValidate` is a no-op. -/
def postValidate (dir : Dir) (lk : Lookups) (out : Heap) (converted : Value)
    (s : SchemaItem) : Bool :=
  match dir with
  | Dir.save => true
  | Dir.restore => validate lk out converted s

/-- `handleValidationError`.  `SavableConverter` inherits the base version
(lines 168-178), which raises a `ValidationError` whose message carries the
object, path, schema and reason.  `SavableUnconverter` overrides it (lines
252-263) intending to raise a `ValidationWarning` ("Will use data anyway,
bad things may happen soon"), but line 263 reads `schema.ValidationWarning`
where `schema` is the method's schema-node parameter rather than the schema
module, so attribute lookup on the schema node raises `AttributeError`
before anything is raised deliberately. -/
def handleValidationError (dir : Dir) (object : Value) (path : String)
    (s : SchemaItem) : PyErr :=
  match dir with
  | Dir.save =>
    PyErr.validationError
      ("Error validating object " ++ render object ++ "\n\nPath:\n" ++ path
        ++ "\n\nSchema: " ++ renderSchema s ++ "\nReason: validation failed")
  | Dir.restore => PyErr.attributeError "ValidationWarning"

/-- `getSourceAttr` (lines 160-162; overridden for restore at lines
246-247): attribute access on a live object for save (`AttributeError` when
missing), `savedData[attrName]` for restore (`KeyError` when missing). -/
def getSourceAttr (dir : Dir) (h : Heap) (a : Addr) (attrName : String) :
    Except PyErr Value :=
  match h.lookup a with
  | Option.none => Except.error (PyErr.attributeError attrName)
  | Option.some o =>
    match o.fields.lookup attrName with
    | Option.some v => Except.ok v
    | Option.none =>
      match dir with
      | Dir.save => Except.error (PyErr.attributeError attrName)
      | Dir.restore => Except.error (PyErr.keyError attrName)

/-- `getObjectSchema`.  Save (lines 215-216): `objectSchemaLookup` keyed by
the object's runtime class.  Restore (lines 237-239): resolve
`stringsToClasses[object.classString]`, then `objectSchemaLookup` on that
class.  A failed dict lookup raises `KeyError`; reading `classString` from
something that is not a record raises `AttributeError`. -/
def getObjectSchema (dir : Dir) (lk : Lookups) (h : Heap) (a : Addr) :
    Except PyErr ObjectSchema :=
  match h.lookup a with
  | Option.none => Except.error (PyErr.attributeError "__class__")
  | Option.some o =>
    match dir with
    | Dir.save =>
      match lk.objectSchemaLookup.lookup o.cls with
      | Option.some os => Except.ok os
      | Option.none => Except.error (PyErr.keyError o.cls)
    | Dir.restore =>
      match lk.stringsToClasses.lookup o.cls with
      | Option.none => Except.error (PyErr.keyError o.cls)
      | Option.some klass =>
        match lk.objectSchemaLookup.lookup klass with
        | Option.some os => Except.ok os
        | Option.none => Except.error (PyErr.keyError klass)

/-- The mutable state threaded through one `convertObjectList` call: the
`memory` dict keyed by source-object identity (line 122), the target heap
holding the converted objects, and the next fresh target address. -/
structure ConvState where
  memo : List (Addr × Value)
  out : Heap
  ctr : Nat
deriving DecidableEq

/-- `makeNewConvert`.  Save (lines 221-222): a fresh `SavableObject`
carrying the class string and an empty `savedData`.  Restore (lines
241-244): a fresh bare `_BootStrapClass` instance whose `__class__` is then
reassigned to `stringsToClasses[classString]`; no constructor of the target
class runs and no field is set. -/
def makeNewConvert (dir : Dir) (lk : Lookups) (classString : String)
    (st : ConvState) : Except PyErr (Addr × ConvState) :=
  match dir with
  | Dir.save =>
    Except.ok (st.ctr,
      { st with out := (st.ctr, { cls := classString, fields := [] }) :: st.out
                ctr := st.ctr + 1 })
  | Dir.restore =>
    match lk.stringsToClasses.lookup classString with
    | Option.none => Except.error (PyErr.keyError classString)
    | Option.some klass =>
      Except.ok (st.ctr,
        { st with out := (st.ctr, { cls := klass, fields := [] }) :: st.out
                  ctr := st.ctr + 1 })

/-- `setTargetAttr` (lines 164-166 / 224-225): set one field on a target
object, in place. -/
def setTargetAttr (st : ConvState) (t : Addr) (name : String) (v : Value) :
    ConvState :=
  match st.out.lookup t with
  | Option.none => st
  | Option.some o =>
    { st with out := (t, { o with fields := dictSet o.fields name v }) :: st.out }

mutual

/-- `ConverterBase.convertData` (lines 54-89): run `preValidate` (a failure
goes through `handleValidationError`, which raises), dispatch on `None` /
scalar / list / dict / object (lines 72-83), then run `postValidate` the
same way.  Fuel decreases on every recursive step, modelling the finite
Python call stack; non-container data under a container schema fails the
way Python's iteration would. -/
def convertData (dir : Dir) (lk : Lookups) (h : Heap) :
    Nat → ConvState → Value → SchemaItem → String →
    Except PyErr (Value × ConvState)
  | 0, _, _, _, _ => Except.error PyErr.recursionError
  | n + 1, st, data, s, path =>
    if preValidate dir lk h data s then
      match
        (match data, s with
         | Value.none, _ => Except.ok (Value.none, st)
         | d, SchemaItem.simple _ _ => Except.ok (d, st)
         | Value.list xs, SchemaItem.list c =>
           (match convertList dir lk h n st xs c path 0 with
            | Except.error e => Except.error e
            | Except.ok (ws, st1) => Except.ok (Value.list ws, st1))
         | Value.dict es, SchemaItem.dict ks vs =>
           (match convertDict dir lk h n st es ks vs path [] with
            | Except.error e => Except.error e
            | Except.ok (nes, st1) => Except.ok (Value.dict nes, st1))
         | d, SchemaItem.object _ => convertObject dir lk h n st d s path
         | _, SchemaItem.list _ =>
           Except.error (PyErr.typeError "object is not iterable")
         | _, SchemaItem.dict _ _ =>
           Except.error (PyErr.typeError "object is not iterable")) with
      | Except.error e => Except.error e
      | Except.ok (rv, st') =>
        if postValidate dir lk st'.out rv s then Except.ok (rv, st')
        else Except.error (handleValidationError dir data path s)
    else Except.error (handleValidationError dir data path s)

/-- `ConverterBase.convertList` (lines 91-98): convert each element with the
child schema, in order, extending the path with the element index.  The
result is the new list's contents. -/
def convertList (dir : Dir) (lk : Lookups) (h : Heap) :
    Nat → ConvState → List Value → SchemaItem → String → Nat →
    Except PyErr (List Value × ConvState)
  | _, st, [], _, _, _ => Except.ok ([], st)
  | 0, _, _ :: _, _, _, _ => Except.error PyErr.recursionError
  | n + 1, st, x :: xs, c, path, i =>
    match convertData dir lk h n st x c
        (path ++ "\n[" ++ toString i ++ "] -> " ++ render x) with
    | Except.error e => Except.error e
    | Except.ok (w, st') =>
      match convertList dir lk h n st' xs c path (i + 1) with
      | Except.error e => Except.error e
      | Except.ok (ws, st'') => Except.ok (w :: ws, st'')

/-- `ConverterBase.convertDict` (lines 100-113): convert every key and every
value independently with their schemas, then `rv[newKey] = newValue`; a
converted key equal to an existing one overwrites it.  The result is the
new mapping's entries. -/
def convertDict (dir : Dir) (lk : Lookups) (h : Heap) :
    Nat → ConvState → List (Value × Value) → SchemaItem → SchemaItem →
    String → List (Value × Value) →
    Except PyErr (List (Value × Value) × ConvState)
  | _, st, [], _, _, _, acc => Except.ok (acc, st)
  | 0, _, _ :: _, _, _, _, _ => Except.error PyErr.recursionError
  | n + 1, st, (k, v) :: es, ks, vs, path, acc =>
    match convertData dir lk h n st k ks (path ++ "\nkey: " ++ render k) with
    | Except.error e => Except.error e
    | Except.ok (newKey, st') =>
      match convertData dir lk h n st' v vs
          (path ++ "\n\x7b" ++ render k ++ "\x7d -> " ++ render v) with
      | Except.error e => Except.error e
      | Except.ok (newValue, st'') =>
        convertDict dir lk h n st'' es ks vs path (vdictSet acc newKey newValue)

/-- `ConverterBase.convertObject` (lines 128-145): a memo hit returns the
already-installed target at once; otherwise resolve the schema by the
object's *runtime* class (the schema argument is deliberately unused, see
the comment at lines 132-134), create the target, install it in the memo
*before* recursing, then convert and set every schema field in order. -/
def convertObject (dir : Dir) (lk : Lookups) (h : Heap) :
    Nat → ConvState → Value → SchemaItem → String →
    Except PyErr (Value × ConvState)
  | n, st, data, _, path =>
    match data with
    | Value.ref a =>
      match st.memo.lookup a with
      | Option.some w => Except.ok (w, st)
      | Option.none =>
        match n with
        | 0 => Except.error PyErr.recursionError
        | n' + 1 =>
          match getObjectSchema dir lk h a with
          | Except.error e => Except.error e
          | Except.ok os =>
            match makeNewConvert dir lk os.classString st with
            | Except.error e => Except.error e
            | Except.ok (t, st1) =>
              let st2 := { st1 with memo := (a, Value.ref t) :: st1.memo }
              convertFields dir lk h n' st2 t a os.fields path
    | _ =>
      -- A non-object datum under an object schema only reaches this point
      -- in the restore direction (the save direction's preValidate raises
      -- first); there `getObjectSchema` reads `object.classString` and
      -- raises `AttributeError`.
      Except.error (PyErr.attributeError "classString")

/-- The field loop of `convertObject` (lines 140-144): fetch each schema
field from the source, convert it, and set it on the target; finally return
the target (line 145). -/
def convertFields (dir : Dir) (lk : Lookups) (h : Heap) :
    Nat → ConvState → Addr → Addr → List (String × SchemaItem) → String →
    Except PyErr (Value × ConvState)
  | _, st, t, _, [], _ => Except.ok (Value.ref t, st)
  | 0, _, _, _, _ :: _, _ => Except.error PyErr.recursionError
  | n + 1, st, t, a, (name, fs) :: rest, path =>
    match getSourceAttr dir h a name with
    | Except.error e => Except.error e
    | Except.ok d =>
      match convertData dir lk h n st d fs
          (path ++ "\n" ++ name ++ " -> " ++ render d) with
      | Except.error e => Except.error e
      | Except.ok (w, st') =>
        convertFields dir lk h n (setTargetAttr st' t name w) t a rest path

end

/-- `prepareObjectList`.  Save (lines 208-213): keep exactly the objects
whose runtime class appears in `classesToStrings`, pairing each with
`SchemaObject(object.__class__)`; anything else is silently dropped.
Restore (lines 230-235): pair every record with
`SchemaObject(stringsToClasses[record.classString])`; an unknown class
string raises `KeyError`, and a value with no `classString` attribute
raises `AttributeError`. -/
def prepareObjectList (dir : Dir) (lk : Lookups) (h : Heap) :
    List Value → Except PyErr (List (Value × SchemaItem))
  | [] => Except.ok []
  | v :: rest =>
    match dir with
    | Dir.save =>
      match prepareObjectList Dir.save lk h rest with
      | Except.error e => Except.error e
      | Except.ok tail =>
        match v with
        | Value.ref a =>
          match h.lookup a with
          | Option.some o =>
            if (lk.classesToStrings.lookup o.cls).isSome then
              Except.ok ((v, SchemaItem.object o.cls) :: tail)
            else Except.ok tail
          | Option.none => Except.ok tail
        | _ => Except.ok tail
    | Dir.restore =>
      match v with
      | Value.ref a =>
        match h.lookup a with
        | Option.none => Except.error (PyErr.attributeError "classString")
        | Option.some o =>
          match lk.stringsToClasses.lookup o.cls with
          | Option.none => Except.error (PyErr.keyError o.cls)
          | Option.some klass =>
            match prepareObjectList Dir.restore lk h rest with
            | Except.error e => Except.error e
            | Except.ok tail =>
              Except.ok ((v, SchemaItem.object klass) :: tail)
      | _ => Except.error (PyErr.attributeError "classString")

/-- The loop of `convertObjectList` (lines 121-126): convert each prepared
(object, schema) pair in turn, threading the shared `memory`. -/
def convertLoop (dir : Dir) (lk : Lookups) (h : Heap) (n : Nat) :
    ConvState → List (Value × SchemaItem) →
    Except PyErr (List Value × ConvState)
  | st, [] => Except.ok ([], st)
  | st, (v, s) :: rest =>
    let path := render v
    match convertData dir lk h n st v s path with
    | Except.error e => Except.error e
    | Except.ok (w, st') =>
      match convertLoop dir lk h n st' rest with
      | Except.error e => Except.error e
      | Except.ok (ws, st'') => Except.ok (w :: ws, st'')

/-- `ConverterBase.convertObjectList` (lines 115-126): prepare the object
list, then convert each pair against a fresh shared `memory`.  The result
is the list of converted top-level values together with the target heap
they live in. -/
def convertObjectList (dir : Dir) (lk : Lookups) (h : Heap) (n : Nat)
    (objects : List Value) : Except PyErr (List Value × Heap) :=
  match prepareObjectList dir lk h objects with
  | Except.error e => Except.error e
  | Except.ok pairs =>
    match convertLoop dir lk h n { memo := [], out := [], ctr := 0 } pairs with
    | Except.error e => Except.error e
    | Except.ok (ws, st) => Except.ok (ws, st.out)

/-- `saveObjectList` (lines 265-271): build a `SavableConverter` (whose
`__init__` resolves the default schema set, see `converterInit`) and run
`convertObjectList`. -/
def saveObjectList (n : Nat) (h : Heap) (objects : List Value)
    (objectSchemas : Option (List ObjectSchema)) :
    Except PyErr (List Value × Heap) :=
  match converterInit objectSchemas with
  | Except.error e => Except.error e
  | Except.ok lk => convertObjectList Dir.save lk h n objects

/-- `restoreObjectList` (lines 273-276): build a `SavableUnconverter` and
run `convertObjectList` (the stray `restorer.objectSchemas = objectSchemas`
assignment on line 275 has no observable effect and is not modelled). -/
def restoreObjectList (n : Nat) (h : Heap) (savedObjects : List Value)
    (objectSchemas : Option (List ObjectSchema)) :
    Except PyErr (List Value × Heap) :=
  match converterInit objectSchemas with
  | Except.error e => Except.error e
  | Except.ok lk => convertObjectList Dir.restore lk h n savedObjects

theorem convertData_succ (dir : Dir) (lk : Lookups) (h : Heap) (n : Nat)
    (st : ConvState) (data : Value) (s : SchemaItem) (path : String) :
    convertData dir lk h (n + 1) st data s path =
    (if preValidate dir lk h data s then
      match
        (match data, s with
         | Value.none, _ => Except.ok (Value.none, st)
         | d, SchemaItem.simple _ _ => Except.ok (d, st)
         | Value.list xs, SchemaItem.list c =>
           (match convertList dir lk h n st xs c path 0 with
            | Except.error e => Except.error e
            | Except.ok (ws, st1) => Except.ok (Value.list ws, st1))
         | Value.dict es, SchemaItem.dict ks vs =>
           (match convertDict dir lk h n st es ks vs path [] with
            | Except.error e => Except.error e
            | Except.ok (nes, st1) => Except.ok (Value.dict nes, st1))
         | d, SchemaItem.object _ => convertObject dir lk h n st d s path
         | _, SchemaItem.list _ =>
           Except.error (PyErr.typeError "object is not iterable")
         | _, SchemaItem.dict _ _ =>
           Except.error (PyErr.typeError "object is not iterable")) with
      | Except.error e => Except.error e
      | Except.ok (rv, st') =>
        if postValidate dir lk st'.out rv s then Except.ok (rv, st')
        else Except.error (handleValidationError dir data path s)
    else Except.error (handleValidationError dir data path s)) := rfl

/-- Modelled from the spec: `schema.VERSION`, the integer format version
stored in the pickled pair (spec sections 4.4 and 6). -/
def VERSION : Nat := 3

/-- The contents of one database file: the pickled pair
`(schema_mod.VERSION, savableObjects)`; the pickle also carries the record
heap the saved objects live in. -/
structure FileData where
  version : Nat
  roots : List Value
  records : Heap
deriving DecidableEq

/-- A file system: pathname to file contents. -/
abbrev FS := List (String × FileData)

/-- `saveDatabase` (lines 278-285): flatten the object list first; only
when that fully succeeds open the destination and dump the pickled pair.
The returned file system reflects the write; on an error the file system is
returned untouched. -/
def saveDatabase (n : Nat) (h : Heap) (objects : List Value)
    (pathname : String) (objectSchemas : Option (List ObjectSchema))
    (fs : FS) : Except PyErr Unit × FS :=
  match saveObjectList n h objects objectSchemas with
  | Except.error e => (Except.error e, fs)
  | Except.ok (roots, records) =>
    (Except.ok (),
      alSet fs pathname { version := VERSION, roots := roots, records := records })

/-- `restoreDatabase` (lines 287-296): open and unpickle the file *first*
(a missing file raises `IOError` here), then run `restoreObjectList`; the
version upgrade hook is a no-op (line 294). -/
def restoreDatabase (n : Nat) (pathname : String)
    (objectSchemas : Option (List ObjectSchema)) (fs : FS) :
    Except PyErr (List Value × Heap) :=
  match fs.lookup pathname with
  | Option.none => Except.error (PyErr.ioError pathname)
  | Option.some fd => restoreObjectList n fd.records fd.roots objectSchemas

deriving instance DecidableEq for Except

/-- Does a computation end in a `ValidationError`? -/
def isValidationError {α : Type} : Except PyErr α → Bool
  | Except.error (PyErr.validationError _) => true
  | _ => false

/-
Concrete example schemas and heaps used by several claim witnesses, after
the spec's concrete scenario (section 8): a `Feed` with a title and items,
an `Item` with a name and a back-reference to its feed.
-/

/-- Schema for the example `Feed` class. -/
def osFeed : ObjectSchema :=
  { klass := "Feed", classString := "feed",
    fields := [("title", SchemaItem.simple ScalarKind.text false),
               ("items", SchemaItem.list (SchemaItem.object "Item"))] }

/-- Schema for the example `Item` class. -/
def osItem : ObjectSchema :=
  { klass := "Item", classString := "item",
    fields := [("name", SchemaItem.simple ScalarKind.text false),
               ("feed", SchemaItem.object "Feed")] }

/-- The example schema set. -/
def demoSchemas : List ObjectSchema := [osFeed, osItem]

/-- A stored `item` record whose `name` field holds an integer where the
schema demands text: the C1 failing input. -/
def badFlatHeap : Heap :=
  [(0, { cls := "item",
         fields := [("name", Value.int 7), ("feed", Value.none)] })]

/-- A live `Item` whose `name` attribute holds an integer where the schema
demands text: the equivalent live-object defect. -/
def badLiveHeap : Heap :=
  [(0, { cls := "Item",
         fields := [("name", Value.int 7), ("feed", Value.none)] })]

/-- C1.  The claim says `restoreObjectList` must not raise on a record
with a field value of the wrong scalar kind, the offending value being
threaded through and conversion continuing.  The code's own message text
("Will use data anyway, bad things may happen soon", lines 254-262)
documents that intent, but line 263 raises out of `handleValidationError`
(and reads `ValidationWarning` off the schema-node parameter instead of
the schema module, an `AttributeError`), so the whole restore aborts: the
restore below evaluates to an error, while the save path on the equivalent
live defect raises a `ValidationError` as the claim says. -/
theorem spec_c1_restore_raises :
    restoreObjectList 20 badFlatHeap [Value.ref 0] (Option.some demoSchemas)
      = Except.error (PyErr.attributeError "ValidationWarning")
    ∧ isValidationError
        (saveObjectList 20 badLiveHeap [Value.ref 0] (Option.some demoSchemas))
      = true := by
  constructor <;> decide

/-- C4 counterexample.  The claim says all four entry points raise the
`NameError` "before any conversion or file access occurs" when
`objectSchemas` is omitted, but `restoreDatabase` opens and unpickles the
file first (lines 287-292): on a file system without the file it raises
`IOError`, not `NameError`. -/
theorem spec_c4_cex :
    restoreDatabase 6 "database.pickle" Option.none []
      = Except.error (PyErr.ioError "database.pickle") := by
  decide

/-- C4 (amended).  With `objectSchemas` omitted, `saveObjectList`,
`restoreObjectList` and `saveDatabase` raise `NameError` (the `__init__`
default branch reads the unbound name `schema`, line 44) before any
conversion or file access — `saveDatabase` leaves the file system
untouched — while `restoreDatabase` opens and unpickles the file first and
only then raises the same `NameError`, still before any conversion. -/
theorem spec_c4 (n : Nat) (h : Heap) (objects : List Value) (path : String)
    (fs : FS) (fd : FileData) :
    saveObjectList n h objects Option.none
      = Except.error (PyErr.nameError "schema")
    ∧ restoreObjectList n h objects Option.none
      = Except.error (PyErr.nameError "schema")
    ∧ saveDatabase n h objects path Option.none fs
      = (Except.error (PyErr.nameError "schema"), fs)
    ∧ (fs.lookup path = Option.some fd →
        restoreDatabase n path Option.none fs
          = Except.error (PyErr.nameError "schema")) := by
  refine ⟨rfl, rfl, rfl, fun hlook => ?_⟩
  simp [restoreDatabase, hlook, restoreObjectList, converterInit]

/-- C4 witness. -/
theorem spec_c4_witness :
    ([("db", ({ version := 3, roots := [], records := [] } : FileData))] : FS).lookup "db"
      = Option.some { version := 3, roots := [], records := [] }
    ∧ restoreDatabase 4 "db" Option.none
        [("db", { version := 3, roots := [], records := [] })]
      = Except.error (PyErr.nameError "schema") := by
  refine ⟨by decide, ?_⟩
  exact (spec_c4 4 [] [] "db" [("db", { version := 3, roots := [], records := [] })]
    { version := 3, roots := [], records := [] }).2.2.2 (by decide)

/-- A live object whose class appears in no schema. -/
def unregisteredHeap : Heap := [(0, { cls := "Mystery", fields := [] })]

/-- C5 counterexample.  The claim says an object whose class cannot be
resolved in the class-to-identifier lookup causes a fatal configuration
error on the save path; in fact `SavableConverter.prepareObjectList`
(lines 210-212) silently filters such an object out, so the save below
succeeds and returns an empty result instead of raising. -/
theorem spec_c5_cex :
    saveObjectList 5 unregisteredHeap [Value.ref 0] (Option.some demoSchemas)
      = Except.ok ([], []) := by
  decide

/-- A registered parent (a `Feed`) whose nested `items` field references
an object of a class appearing in no schema. -/
def c5NestedHeap : Heap :=
  [(0, { cls := "Feed",
         fields := [("title", Value.text "t"),
                    ("items", Value.list [Value.ref 1])] }),
   (1, { cls := "Mystery", fields := [] })]

/-- C5 (amended).  A top-level object whose class is missing from
`classesToStrings` is silently dropped by the save path's
`prepareObjectList`; resolution failures elsewhere are fatal, but with
different errors: the restore path's `prepareObjectList` raises `KeyError`
for an unknown class string, while on the save path an object whose class
is missing from `objectSchemaLookup` fails `preValidate` — which checks
that same lookup — so `convertData` raises `ValidationError` before
`convertObject`'s own lookup is ever reached, as the end-to-end save of a
registered parent holding an unregistered nested child shows. -/
theorem spec_c5 :
    (∀ lk h a o rest, List.lookup a h = Option.some o →
      (lk : Lookups).classesToStrings.lookup o.cls = Option.none →
      prepareObjectList Dir.save lk h (Value.ref a :: rest)
        = prepareObjectList Dir.save lk h rest)
    ∧ (∀ lk h a o rest, List.lookup a h = Option.some o →
        (lk : Lookups).stringsToClasses.lookup o.cls = Option.none →
        prepareObjectList Dir.restore lk h (Value.ref a :: rest)
          = Except.error (PyErr.keyError o.cls))
    ∧ (∀ lk h n st a o k path, List.lookup a h = Option.some o →
        (lk : Lookups).objectSchemaLookup.lookup o.cls = Option.none →
        ∃ msg, convertData Dir.save lk h (n + 1) st (Value.ref a)
            (SchemaItem.object k) path
          = Except.error (PyErr.validationError msg))
    ∧ (∃ msg, saveObjectList 6 c5NestedHeap [Value.ref 0]
        (Option.some demoSchemas)
        = Except.error (PyErr.validationError msg)) := by
  refine ⟨fun lk h a o rest h1 h2 => ?_, fun lk h a o rest h1 h2 => ?_,
    fun lk h n st a o k path h1 h2 => ?_,
    ⟨"Error validating object " ++ render (Value.list [Value.ref 1])
      ++ "\n\nPath:\n" ++ render (Value.ref 0) ++ "\n" ++ "items" ++ " -> "
      ++ render (Value.list [Value.ref 1]) ++ "\n\nSchema: "
      ++ renderSchema (SchemaItem.list (SchemaItem.object "Item"))
      ++ "\nReason: validation failed", by decide⟩⟩
  · simp [prepareObjectList, h1, h2]
    cases prepareObjectList Dir.save lk h rest <;> rfl
  · simp [prepareObjectList, h1, h2]
  · have hval : validate lk h (Value.ref a) (SchemaItem.object k) = false := by
      show (match h.lookup a with
        | Option.some o => (lk.objectSchemaLookup.lookup o.cls).isSome
        | Option.none => false) = false
      rw [h1]
      dsimp only
      rw [h2]
      rfl
    have hpre : preValidate Dir.save lk h (Value.ref a) (SchemaItem.object k)
        = false := hval
    refine ⟨"Error validating object " ++ render (Value.ref a)
      ++ "\n\nPath:\n" ++ path ++ "\n\nSchema: "
      ++ renderSchema (SchemaItem.object k)
      ++ "\nReason: validation failed", ?_⟩
    rw [convertData_succ, if_neg (by rw [hpre]; exact Bool.false_ne_true)]
    rfl

/-- C5 witness. -/
theorem spec_c5_witness :
    prepareObjectList Dir.save (buildLookups demoSchemas) unregisteredHeap
        [Value.ref 0]
      = prepareObjectList Dir.save (buildLookups demoSchemas) unregisteredHeap []
    ∧ prepareObjectList Dir.restore (buildLookups demoSchemas) unregisteredHeap
        [Value.ref 0]
      = Except.error (PyErr.keyError "Mystery")
    ∧ ∃ msg, convertData Dir.save (buildLookups demoSchemas) unregisteredHeap 3
        { memo := [], out := [], ctr := 0 } (Value.ref 0)
        (SchemaItem.object "Mystery") ""
      = Except.error (PyErr.validationError msg) := by
  refine ⟨?_, ?_, ?_⟩
  · exact spec_c5.1 (buildLookups demoSchemas) unregisteredHeap 0
      { cls := "Mystery", fields := [] } [] (by decide) (by decide)
  · exact spec_c5.2.1 (buildLookups demoSchemas) unregisteredHeap 0
      { cls := "Mystery", fields := [] } [] (by decide) (by decide)
  · exact spec_c5.2.2.1 (buildLookups demoSchemas) unregisteredHeap 2
      { memo := [], out := [], ctr := 0 } 0 { cls := "Mystery", fields := [] }
      "Mystery" "" (by decide) (by decide)

/-- C6.  `saveObjectList` on the empty list returns the empty list (with
an empty record heap), and `restoreObjectList` on that result returns the
empty list again. -/
theorem spec_c6 (n m : Nat) (h : Heap) (oss : List ObjectSchema) :
    saveObjectList n h [] (Option.some oss) = Except.ok ([], [])
    ∧ restoreObjectList m [] [] (Option.some oss) = Except.ok ([], []) :=
  ⟨rfl, rfl⟩

/-- C7.  If the flatten phase of `saveDatabase` fails (a `ValidationError`
or any other exception from `saveObjectList`), the error propagates and
the file system is returned exactly as it was: the write step (lines
281-285) only runs after conversion of the whole list has succeeded. -/
theorem spec_c7 (n : Nat) (h : Heap) (objects : List Value) (path : String)
    (oss : Option (List ObjectSchema)) (fs : FS) (e : PyErr)
    (hfail : saveObjectList n h objects oss = Except.error e) :
    saveDatabase n h objects path oss fs = (Except.error e, fs) := by
  simp [saveDatabase, hfail]

/-- C7 witness: the save of the C1 defective live object fails, and
`saveDatabase` leaves a nonempty file system untouched. -/
theorem spec_c7_witness :
    saveDatabase 20 badLiveHeap [Value.ref 0] "db"
        (Option.some demoSchemas)
        [("other", { version := 3, roots := [], records := [] })]
      = (Except.error
          (handleValidationError Dir.save (Value.int 7)
            (render (Value.ref 0) ++ "\n" ++ "name" ++ " -> " ++ render (Value.int 7))
            (SchemaItem.simple ScalarKind.text false)),
         [("other", { version := 3, roots := [], records := [] })]) := by
  exact spec_c7 20 badLiveHeap [Value.ref 0] "db" (Option.some demoSchemas)
    [("other", { version := 3, roots := [], records := [] })] _ (by decide)

/-
C8: polymorphic dispatch.
-/

/-- Schema for the example base class. -/
def osBase : ObjectSchema :=
  { klass := "Base", classString := "base",
    fields := [("x", SchemaItem.simple ScalarKind.int false)] }

/-- Schema for the example subclass, with its own larger field set. -/
def osSub : ObjectSchema :=
  { klass := "Sub", classString := "sub",
    fields := [("x", SchemaItem.simple ScalarKind.int false),
               ("y", SchemaItem.simple ScalarKind.int false)] }

/-- Schema for a parent class whose `child` field is declared as an
ObjectReference to `Base`. -/
def osParent : ObjectSchema :=
  { klass := "P", classString := "p",
    fields := [("child", SchemaItem.object "Base")] }

/-- The subclass-scenario schema set. -/
def c8Schemas : List ObjectSchema := [osBase, osSub, osParent]

/-- A parent whose `child` field, declared `ObjectReference(Base)`, holds
an object whose runtime class is the subclass `Sub`. -/
def c8Heap : Heap :=
  [(0, { cls := "P", fields := [("child", Value.ref 1)] }),
   (1, { cls := "Sub", fields := [("x", Value.int 1), ("y", Value.int 2)] })]

/-- Project the flat record saved at one address out of a save result. -/
def savedRecord (r : Except PyErr (List Value × Heap)) (a : Addr) : Option Obj :=
  match r with
  | Except.ok (_, f) => f.lookup a
  | Except.error _ => Option.none

/-- C8.  `convertObject` ignores the statically declared schema node
entirely — converting under `ObjectReference(k1)` and `ObjectReference(k2)`
is the same operation — and resolves the schema by the object's actual
runtime class: in the concrete scenario, a `Sub` instance held in a field
declared `ObjectReference(Base)` is saved with `Sub`'s class string and
`Sub`'s full field set (both `x` and `y`). -/
theorem spec_c8 :
    (∀ dir lk h n st data k1 k2 path,
      convertObject dir lk h n st data (SchemaItem.object k1) path
        = convertObject dir lk h n st data (SchemaItem.object k2) path)
    ∧ savedRecord
        (saveObjectList 12 c8Heap [Value.ref 0] (Option.some c8Schemas)) 1
      = Option.some { cls := "sub",
                      fields := [("x", Value.int 1), ("y", Value.int 2)] } := by
  constructor
  · intro dir lk h n st data k1 k2 path
    cases data <;> cases n <;> simp [convertObject]
  · decide

/-
C9: duplicate converted keys in a mapping silently collapse.
-/

/-- C9.  In `convertDict`, each key and each value is converted
independently with its respective child schema; when the two keys of a
two-entry mapping convert to the same target key `k'`, the result is a
single-entry mapping holding the *last* converted value, produced normally
(no error is raised), so the output has fewer entries than the source. -/
theorem spec_c9 (dir : Dir) (lk : Lookups) (h : Heap) (n : Nat)
    (st st1 st2 st3 st4 : ConvState) (k1 v1 k2 v2 k' w1 w2 : Value)
    (ks vs : SchemaItem) (path : String)
    (h1 : convertData dir lk h (n + 1) st k1 ks
            (path ++ "\nkey: " ++ render k1) = Except.ok (k', st1))
    (h2 : convertData dir lk h (n + 1) st1 v1 vs
            (path ++ "\n\x7b" ++ render k1 ++ "\x7d -> " ++ render v1)
          = Except.ok (w1, st2))
    (h3 : convertData dir lk h n st2 k2 ks
            (path ++ "\nkey: " ++ render k2) = Except.ok (k', st3))
    (h4 : convertData dir lk h n st3 v2 vs
            (path ++ "\n\x7b" ++ render k2 ++ "\x7d -> " ++ render v2)
          = Except.ok (w2, st4)) :
    convertDict dir lk h (n + 2) st [(k1, v1), (k2, v2)] ks vs path []
      = Except.ok ([(k', w2)], st4) := by
  simp [convertDict, h1, h2, h3, h4, vdictSet]

/-- A minimal schema set for the C9 witness. -/
def osC : ObjectSchema := { klass := "C", classString := "c", fields := [] }

/-- A conversion state in which two distinct source objects are already
memoized to the same target, so their keys convert to the same value. -/
def c9State : ConvState :=
  { memo := [(0, Value.ref 10), (1, Value.ref 10)],
    out := [(10, { cls := "c", fields := [] })], ctr := 11 }

/-- The heap holding the two distinct key objects. -/
def c9Heap : Heap :=
  [(0, { cls := "C", fields := [] }), (1, { cls := "C", fields := [] })]

/-- C9 witness: the two-entry dict whose distinct object keys convert to
the same target reference collapses to one entry holding the second
value. -/
theorem spec_c9_witness :
    convertDict Dir.save (buildLookups [osC]) c9Heap 4 c9State
        [(Value.ref 0, Value.int 1), (Value.ref 1, Value.int 2)]
        (SchemaItem.object "C") (SchemaItem.simple ScalarKind.int false) "d" []
      = Except.ok ([(Value.ref 10, Value.int 2)], c9State) := by
  exact spec_c9 Dir.save (buildLookups [osC]) c9Heap 2 c9State c9State c9State
    c9State c9State (Value.ref 0) (Value.int 1) (Value.ref 1) (Value.int 2)
    (Value.ref 10) (Value.int 1) (Value.int 2) (SchemaItem.object "C")
    (SchemaItem.simple ScalarKind.int false) "d"
    (by decide) (by decide) (by decide) (by decide)

/-
State-evolution facts about the converter, used by the reference-identity
and restoration claims: the fresh-address counter only grows, memo entries
are never removed or overwritten, and existing target objects other than
the one currently being filled are never mutated.
-/

/-- `st'` extends `st`: the counter grew, every memo entry survived
unchanged, and every existing target object survived unchanged. -/
def Extends (st st' : ConvState) : Prop :=
  st.ctr ≤ st'.ctr
  ∧ (∀ a w, st.memo.lookup a = Option.some w → st'.memo.lookup a = Option.some w)
  ∧ (∀ u, u < st.ctr → st'.out.lookup u = st.out.lookup u)

/-- Like `Extends`, but the object at `t` (the one the enclosing
`convertObject` is filling) may have been mutated. -/
def ExtendsAt (t : Addr) (st st' : ConvState) : Prop :=
  st.ctr ≤ st'.ctr
  ∧ (∀ a w, st.memo.lookup a = Option.some w → st'.memo.lookup a = Option.some w)
  ∧ (∀ u, u < st.ctr → u ≠ t → st'.out.lookup u = st.out.lookup u)

theorem extends_refl (st : ConvState) : Extends st st :=
  ⟨Nat.le_refl _, fun _ _ h => h, fun _ _ => rfl⟩

theorem extends_trans {s1 s2 s3 : ConvState} (h1 : Extends s1 s2)
    (h2 : Extends s2 s3) : Extends s1 s3 :=
  ⟨Nat.le_trans h1.1 h2.1, fun a w h => h2.2.1 a w (h1.2.1 a w h),
    fun u hu => (h2.2.2 u (Nat.lt_of_lt_of_le hu h1.1)).trans (h1.2.2 u hu)⟩

theorem extendsAt_of_extends {t : Addr} {s1 s2 : ConvState}
    (h : Extends s1 s2) : ExtendsAt t s1 s2 :=
  ⟨h.1, h.2.1, fun u hu _ => h.2.2 u hu⟩

theorem extends_extendsAt_trans {t : Addr} {s1 s2 s3 : ConvState}
    (h1 : Extends s1 s2) (h2 : ExtendsAt t s2 s3) : ExtendsAt t s1 s3 :=
  ⟨Nat.le_trans h1.1 h2.1, fun a w h => h2.2.1 a w (h1.2.1 a w h),
    fun u hu hut =>
      ((h2.2.2 u (Nat.lt_of_lt_of_le hu h1.1) hut)).trans (h1.2.2 u hu)⟩

theorem extendsAt_extends_trans {t : Addr} {s1 s2 s3 : ConvState}
    (h1 : ExtendsAt t s1 s2) (h2 : Extends s2 s3) : ExtendsAt t s1 s3 :=
  ⟨Nat.le_trans h1.1 h2.1, fun a w h => h2.2.1 a w (h1.2.1 a w h),
    fun u hu hut =>
      (h2.2.2 u (Nat.lt_of_lt_of_le hu h1.1)).trans (h1.2.2 u hu hut)⟩

theorem extendsAt_trans {t : Addr} {s1 s2 s3 : ConvState}
    (h1 : ExtendsAt t s1 s2) (h2 : ExtendsAt t s2 s3) : ExtendsAt t s1 s3 :=
  ⟨Nat.le_trans h1.1 h2.1, fun a w h => h2.2.1 a w (h1.2.1 a w h),
    fun u hu hut =>
      (h2.2.2 u (Nat.lt_of_lt_of_le hu h1.1) hut).trans (h1.2.2 u hu hut)⟩

theorem lookup_cons_ne {α β : Type} [BEq α] [LawfulBEq α] {k a : α} {v : β}
    {l : List (α × β)} (h : a ≠ k) : ((k, v) :: l).lookup a = l.lookup a := by
  have hb : (a == k) = false := by
    simp only [beq_eq_false_iff_ne, ne_eq]
    exact h
  simp [List.lookup, hb]

theorem lookup_cons_self {α β : Type} [BEq α] [LawfulBEq α] {k : α} {v : β}
    {l : List (α × β)} : ((k, v) :: l).lookup k = Option.some v := by
  simp [List.lookup]

theorem setTargetAttr_extendsAt (st : ConvState) (t : Addr) (name : String)
    (v : Value) : ExtendsAt t st (setTargetAttr st t name v) := by
  unfold setTargetAttr
  cases hl : st.out.lookup t with
  | none => exact extendsAt_of_extends (extends_refl st)
  | some o =>
    exact ⟨Nat.le_refl _, fun _ _ h => h,
      fun u _ hut => lookup_cons_ne hut⟩

theorem setTargetAttr_memo (st : ConvState) (t : Addr) (name : String)
    (v : Value) : (setTargetAttr st t name v).memo = st.memo := by
  unfold setTargetAttr
  cases st.out.lookup t <;> rfl

theorem setTargetAttr_ctr (st : ConvState) (t : Addr) (name : String)
    (v : Value) : (setTargetAttr st t name v).ctr = st.ctr := by
  unfold setTargetAttr
  cases st.out.lookup t <;> rfl

/-- What a successful `makeNewConvert` does to the state: it allocates one
fresh empty object at the old counter and bumps the counter, leaving the
memo alone. -/
theorem makeNewConvert_spec {dir : Dir} {lk : Lookups} {cs : String}
    {st : ConvState} {t : Addr} {st1 : ConvState}
    (h : makeNewConvert dir lk cs st = Except.ok (t, st1)) :
    t = st.ctr ∧ st1.memo = st.memo ∧ st1.ctr = st.ctr + 1
    ∧ ∃ o : Obj, st1.out = (st.ctr, o) :: st.out := by
  cases dir with
  | save =>
    simp [makeNewConvert] at h
    exact ⟨h.1.symm, by rw [← h.2], by rw [← h.2],
      { cls := cs, fields := [] }, by rw [← h.2]⟩
  | restore =>
    rw [makeNewConvert] at h
    split at h
    · cases h
    · rename_i klass hk
      simp at h
      exact ⟨h.1.symm, by rw [← h.2], by rw [← h.2],
        { cls := klass, fields := [] }, by rw [← h.2]⟩


theorem convertData_zero (dir : Dir) (lk : Lookups) (h : Heap)
    (st : ConvState) (data : Value) (s : SchemaItem) (path : String) :
    convertData dir lk h 0 st data s path = Except.error PyErr.recursionError := rfl

theorem convertList_nil (dir : Dir) (lk : Lookups) (h : Heap) (n : Nat)
    (st : ConvState) (c : SchemaItem) (path : String) (i : Nat) :
    convertList dir lk h n st [] c path i = Except.ok ([], st) := by
  cases n <;> rfl

theorem convertObject_eq (dir : Dir) (lk : Lookups) (h : Heap) (n : Nat)
    (st : ConvState) (data : Value) (s : SchemaItem) (path : String) :
    convertObject dir lk h n st data s path =
    (match data with
    | Value.ref a =>
      match st.memo.lookup a with
      | Option.some w => Except.ok (w, st)
      | Option.none =>
        match n with
        | 0 => Except.error PyErr.recursionError
        | n' + 1 =>
          match getObjectSchema dir lk h a with
          | Except.error e => Except.error e
          | Except.ok os =>
            match makeNewConvert dir lk os.classString st with
            | Except.error e => Except.error e
            | Except.ok (t, st1) =>
              convertFields dir lk h n'
                { st1 with memo := (a, Value.ref t) :: st1.memo } t a
                os.fields path
    | _ => Except.error (PyErr.attributeError "classString")) := by
  cases n <;> rfl

theorem convertObject_ref (dir : Dir) (lk : Lookups) (h : Heap) (n : Nat)
    (st : ConvState) (a : Addr) (s : SchemaItem) (path : String) :
    convertObject dir lk h n st (Value.ref a) s path =
    (match st.memo.lookup a with
      | Option.some w => Except.ok (w, st)
      | Option.none =>
        match n with
        | 0 => Except.error PyErr.recursionError
        | n' + 1 =>
          match getObjectSchema dir lk h a with
          | Except.error e => Except.error e
          | Except.ok os =>
            match makeNewConvert dir lk os.classString st with
            | Except.error e => Except.error e
            | Except.ok (t, st1) =>
              convertFields dir lk h n'
                { st1 with memo := (a, Value.ref t) :: st1.memo } t a
                os.fields path) := by
  cases n <;> rfl

theorem convertFields_nil (dir : Dir) (lk : Lookups) (h : Heap) (n : Nat)
    (st : ConvState) (t a : Addr) (path : String) :
    convertFields dir lk h n st t a [] path = Except.ok (Value.ref t, st) := by
  cases n <;> rfl

theorem convertFields_cons (dir : Dir) (lk : Lookups) (h : Heap) (n : Nat)
    (st : ConvState) (t a : Addr) (name : String) (fs : SchemaItem)
    (rest : List (String × SchemaItem)) (path : String) :
    convertFields dir lk h (n + 1) st t a ((name, fs) :: rest) path =
    (match getSourceAttr dir h a name with
    | Except.error e => Except.error e
    | Except.ok d =>
      match convertData dir lk h n st d fs
          (path ++ "\n" ++ name ++ " -> " ++ render d) with
      | Except.error e => Except.error e
      | Except.ok (w, st') =>
        convertFields dir lk h n (setTargetAttr st' t name w) t a rest path) := rfl

theorem convertDict_cons (dir : Dir) (lk : Lookups) (h : Heap) (n : Nat)
    (st : ConvState) (k v : Value) (es : List (Value × Value))
    (ks vs : SchemaItem) (path : String) (acc : List (Value × Value)) :
    convertDict dir lk h (n + 1) st ((k, v) :: es) ks vs path acc =
    (match convertData dir lk h n st k ks (path ++ "\nkey: " ++ render k) with
    | Except.error e => Except.error e
    | Except.ok (newKey, st') =>
      match convertData dir lk h n st' v vs
          (path ++ "\n\x7b" ++ render k ++ "\x7d -> " ++ render v) with
      | Except.error e => Except.error e
      | Except.ok (newValue, st'') =>
        convertDict dir lk h n st'' es ks vs path
          (vdictSet acc newKey newValue)) := rfl

theorem convertDict_nil (dir : Dir) (lk : Lookups) (h : Heap) (n : Nat)
    (st : ConvState) (ks vs : SchemaItem) (path : String)
    (acc : List (Value × Value)) :
    convertDict dir lk h n st [] ks vs path acc = Except.ok (acc, st) := by
  cases n <;> rfl

theorem convertList_cons (dir : Dir) (lk : Lookups) (h : Heap) (n : Nat)
    (st : ConvState) (x : Value) (xs : List Value) (c : SchemaItem)
    (path : String) (i : Nat) :
    convertList dir lk h (n + 1) st (x :: xs) c path i =
    (match convertData dir lk h n st x c
        (path ++ "\n[" ++ toString i ++ "] -> " ++ render x) with
    | Except.error e => Except.error e
    | Except.ok (w, st') =>
      match convertList dir lk h n st' xs c path (i + 1) with
      | Except.error e => Except.error e
      | Except.ok (ws, st'') => Except.ok (w :: ws, st'')) := rfl

theorem convertList_zero_cons (dir : Dir) (lk : Lookups) (h : Heap)
    (st : ConvState) (x : Value) (xs : List Value) (c : SchemaItem)
    (path : String) (i : Nat) :
    convertList dir lk h 0 st (x :: xs) c path i
      = Except.error PyErr.recursionError := rfl

theorem convertDict_zero_cons (dir : Dir) (lk : Lookups) (h : Heap)
    (st : ConvState) (e : Value × Value) (es : List (Value × Value))
    (ks vs : SchemaItem) (path : String) (acc : List (Value × Value)) :
    convertDict dir lk h 0 st (e :: es) ks vs path acc
      = Except.error PyErr.recursionError := by
  obtain ⟨k, v⟩ := e
  rfl

theorem convertFields_zero_cons (dir : Dir) (lk : Lookups) (h : Heap)
    (st : ConvState) (t a : Addr) (f : String × SchemaItem)
    (rest : List (String × SchemaItem)) (path : String) :
    convertFields dir lk h 0 st t a (f :: rest) path
      = Except.error PyErr.recursionError := by
  obtain ⟨name, fs⟩ := f
  rfl

theorem extends_of_eq {st st' : ConvState} (h : st = st') : Extends st st' := by
  cases h
  exact extends_refl st

/-- The combined extension property of all five converter functions,
proved by one induction on the fuel: a successful conversion only ever
grows the counter, adds memo entries (never removing or overwriting one),
and leaves every pre-existing target object untouched, except that the
field loop may mutate the single object `t` it is filling. -/
theorem convert_extends : ∀ n : Nat,
    (∀ dir lk h st data s path w st',
      convertData dir lk h n st data s path = Except.ok (w, st')
        → Extends st st')
    ∧ (∀ dir lk h st xs c path i ws st',
        convertList dir lk h n st xs c path i = Except.ok (ws, st')
          → Extends st st')
    ∧ (∀ dir lk h st es ks vs path acc nes st',
        convertDict dir lk h n st es ks vs path acc = Except.ok (nes, st')
          → Extends st st')
    ∧ (∀ dir lk h st data s path w st',
        convertObject dir lk h n st data s path = Except.ok (w, st')
          → Extends st st')
    ∧ (∀ dir lk h st t a flds path w st',
        convertFields dir lk h n st t a flds path = Except.ok (w, st')
          → ExtendsAt t st st') := by
  intro n
  induction n with
  | zero =>
    refine ⟨fun dir lk h st data s path w st' hc => ?_,
      fun dir lk h st xs c path i ws st' hc => ?_,
      fun dir lk h st es ks vs path acc nes st' hc => ?_,
      fun dir lk h st data s path w st' hc => ?_,
      fun dir lk h st t a flds path w st' hc => ?_⟩
    · rw [convertData_zero] at hc; cases hc
    · cases xs with
      | nil =>
        rw [convertList_nil] at hc
        cases hc
        exact extends_refl st
      | cons x xs => rw [convertList_zero_cons] at hc; cases hc
    · cases es with
      | nil =>
        rw [convertDict_nil] at hc
        cases hc
        exact extends_refl st
      | cons e es => rw [convertDict_zero_cons] at hc; cases hc
    · cases data <;> try (rw [convertObject_eq] at hc; cases hc)
      rename_i a
      rw [convertObject_ref] at hc
      cases hm : st.memo.lookup a with
      | some v => rw [hm] at hc; cases hc; exact extends_refl st
      | none => rw [hm] at hc; cases hc
    · cases flds with
      | nil =>
        rw [convertFields_nil] at hc
        cases hc
        exact extendsAt_of_extends (extends_refl st)
      | cons f flds => rw [convertFields_zero_cons] at hc; cases hc
  | succ n ih =>
    obtain ⟨ihData, ihList, ihDict, ihObj, ihFields⟩ := ih
    refine ⟨fun dir lk h st data s path w st' hc => ?_,
      fun dir lk h st xs c path i ws st' hc => ?_,
      fun dir lk h st es ks vs path acc nes st' hc => ?_,
      fun dir lk h st data s path w st' hc => ?_,
      fun dir lk h st t a flds path w st' hc => ?_⟩
    · -- convertData at n+1
      rw [convertData_succ] at hc
      split at hc
      · split at hc
        · cases hc
        · rename_i rv st1 hdisp
          split at hc
          · cases hc
            split at hdisp
            · cases hdisp; exact extends_refl st
            · cases hdisp; exact extends_refl st
            · -- list arm
              split at hdisp
              · cases hdisp
              · rename_i ws1 st2 hl
                cases hdisp
                exact ihList _ _ _ _ _ _ _ _ _ _ hl
            · -- dict arm
              split at hdisp
              · cases hdisp
              · rename_i nes1 st2 hd
                cases hdisp
                exact ihDict _ _ _ _ _ _ _ _ _ _ _ hd
            · exact ihObj _ _ _ _ _ _ _ _ _ hdisp
            · cases hdisp
            · cases hdisp
          · cases hc
      · cases hc
    · -- convertList at n+1
      cases xs with
      | nil =>
        rw [convertList_nil] at hc
        cases hc
        exact extends_refl st
      | cons x xs =>
        rw [convertList_cons] at hc
        split at hc
        · cases hc
        · rename_i w1 st1 h1
          split at hc
          · cases hc
          · rename_i ws2 st2 h2
            cases hc
            exact extends_trans (ihData _ _ _ _ _ _ _ _ _ h1)
              (ihList _ _ _ _ _ _ _ _ _ _ h2)
    · -- convertDict at n+1
      cases es with
      | nil =>
        rw [convertDict_nil] at hc
        cases hc
        exact extends_refl st
      | cons e es =>
        obtain ⟨k, v⟩ := e
        rw [convertDict_cons] at hc
        split at hc
        · cases hc
        · rename_i k1 st1 h1
          split at hc
          · cases hc
          · rename_i v1 st2 h2
            exact extends_trans (ihData _ _ _ _ _ _ _ _ _ h1)
              (extends_trans (ihData _ _ _ _ _ _ _ _ _ h2)
                (ihDict _ _ _ _ _ _ _ _ _ _ _ hc))
    · -- convertObject at n+1
      cases data <;> try (rw [convertObject_eq] at hc; cases hc)
      rename_i a
      rw [convertObject_ref] at hc
      cases hm : st.memo.lookup a with
      | some v =>
        rw [hm] at hc
        cases hc
        exact extends_refl st
      | none =>
        rw [hm] at hc
        dsimp only at hc
        split at hc
        · cases hc
        · rename_i os hos
          split at hc
          · cases hc
          · rename_i t st1 hmk
            have hfield := ihFields _ _ _ _ _ _ _ _ _ _ hc
            obtain ⟨ht, hmemo, hctr, o, hout⟩ := makeNewConvert_spec hmk
            have h02 : Extends st
                { st1 with memo := (a, Value.ref t) :: st1.memo } := by
              refine ⟨by rw [hctr]; exact Nat.le_succ _, ?_, ?_⟩
              · intro a0 w0 hw0
                have hne : a0 ≠ a := by
                  intro hEq; rw [hEq, hm] at hw0; cases hw0
                show ((a, Value.ref t) :: st1.memo).lookup a0 = Option.some w0
                rw [lookup_cons_ne hne, hmemo]; exact hw0
              · intro u hu
                show st1.out.lookup u = st.out.lookup u
                rw [hout]
                exact lookup_cons_ne (Nat.ne_of_lt hu)
            have hAt := extends_extendsAt_trans h02 hfield
            exact ⟨hAt.1, hAt.2.1,
              fun u hu => hAt.2.2 u hu (by rw [ht]; exact Nat.ne_of_lt hu)⟩
    · -- convertFields at n+1
      cases flds with
      | nil =>
        rw [convertFields_nil] at hc
        cases hc
        exact extendsAt_of_extends (extends_refl st)
      | cons f flds =>
        obtain ⟨name, fs⟩ := f
        rw [convertFields_cons] at hc
        split at hc
        · cases hc
        · rename_i d hd
          split at hc
          · cases hc
          · rename_i w1 st1 h1
            exact extends_extendsAt_trans (ihData _ _ _ _ _ _ _ _ _ h1)
              (extendsAt_trans (setTargetAttr_extendsAt st1 t name w1)
                (ihFields _ _ _ _ _ _ _ _ _ _ hc))

/-
C3: reference identity through the per-call memo.
-/

/-- Schema for a class holding one shared child reference. -/
def osA : ObjectSchema :=
  { klass := "A", classString := "a",
    fields := [("child", SchemaItem.object "B")] }

/-- Schema for the shared child class. -/
def osB : ObjectSchema := { klass := "B", classString := "b", fields := [] }

/-- Two roots of class `A` sharing the same child object. -/
def sharedHeap : Heap :=
  [(0, { cls := "A", fields := [("child", Value.ref 2)] }),
   (1, { cls := "A", fields := [("child", Value.ref 2)] }),
   (2, { cls := "B", fields := [] })]

/-- Schema for a self-referential class. -/
def osSelf : ObjectSchema :=
  { klass := "S", classString := "s",
    fields := [("self", SchemaItem.object "S")] }

/-- A one-object reference cycle. -/
def cycleHeap : Heap :=
  [(0, { cls := "S", fields := [("self", Value.ref 0)] })]

/-- C3.  (i) A source object already in the memo converts to the
already-installed target with no further work and no state change;
(ii) memo entries persist unchanged through any further conversion, so a
source object converts to exactly one target per top-level call;
(iii) concretely, two roots sharing a sub-object save to records whose
`child` fields hold the *same* target reference; and (iv) a self-cycle
converts without infinite recursion, the in-progress target being returned
for the backreference because `convertObject` installs the memo entry
before recursing into the fields. -/
theorem spec_c3 :
    (∀ dir lk h n st a w s path, (st : ConvState).memo.lookup a = Option.some w →
      convertObject dir lk h n st (Value.ref a) s path = Except.ok (w, st))
    ∧ (∀ dir lk h n st data s path w st' a v,
        convertData dir lk h n st data s path = Except.ok (w, st') →
        (st : ConvState).memo.lookup a = Option.some v →
        st'.memo.lookup a = Option.some v)
    ∧ (savedRecord (saveObjectList 12 sharedHeap [Value.ref 0, Value.ref 1]
          (Option.some [osA, osB])) 0
        = Option.some { cls := "a", fields := [("child", Value.ref 1)] }
      ∧ savedRecord (saveObjectList 12 sharedHeap [Value.ref 0, Value.ref 1]
          (Option.some [osA, osB])) 2
        = Option.some { cls := "a", fields := [("child", Value.ref 1)] })
    ∧ savedRecord (saveObjectList 12 cycleHeap [Value.ref 0]
          (Option.some [osSelf])) 0
      = Option.some { cls := "s", fields := [("self", Value.ref 0)] } := by
  refine ⟨fun dir lk h n st a w s path hm => ?_, ?_, by decide, by decide⟩
  · rw [convertObject_ref, hm]
  · intro dir lk h n st data s path w st' a v hconv hm
    exact ((convert_extends n).1 dir lk h st data s path w st' hconv).2.1 a v hm

/-- C3 witness: concrete instances of the two universally quantified
clauses. -/
theorem spec_c3_witness :
    convertObject Dir.save (buildLookups [osA, osB]) sharedHeap 3 c9State
        (Value.ref 0) (SchemaItem.object "B") "p"
      = Except.ok (Value.ref 10, c9State)
    ∧ convertData Dir.save (buildLookups [osC]) c9Heap 5 c9State
        (Value.int 4) (SchemaItem.simple ScalarKind.int false) "p"
      = Except.ok (Value.int 4, c9State)
    ∧ c9State.memo.lookup 1 = Option.some (Value.ref 10) := by
  refine ⟨?_, by decide, by decide⟩
  exact spec_c3.1 Dir.save (buildLookups [osA, osB]) sharedHeap 3 c9State 0
    (Value.ref 10) (SchemaItem.object "B") "p" (by decide)

/-
C10: restoration creates bare objects and sets exactly the schema fields.
-/

theorem dictSet_append (fs : List (String × Value)) (name : String)
    (v : Value) (h : name ∉ fs.map Prod.fst) :
    dictSet fs name v = fs ++ [(name, v)] := by
  induction fs with
  | nil => rfl
  | cons f fs ih =>
    obtain ⟨nm, w⟩ := f
    rw [List.map_cons, List.mem_cons] at h
    push_neg at h
    rw [dictSet, if_neg (fun hEq => h.1 hEq.symm), ih h.2]
    rfl

theorem setTargetAttr_lookup {st : ConvState} {t : Addr} {o : Obj}
    (h : st.out.lookup t = Option.some o) (name : String) (v : Value) :
    (setTargetAttr st t name v).out.lookup t
      = Option.some { o with fields := dictSet o.fields name v } := by
  unfold setTargetAttr
  rw [h]
  exact lookup_cons_self

/-- The field loop leaves the target's class alone and folds one
`setattr` per schema field over its field dict, in schema order. -/
theorem convertFields_names : ∀ (n : Nat) (dir : Dir) (lk : Lookups)
    (h : Heap) (st : ConvState) (t a : Addr)
    (flds : List (String × SchemaItem)) (path : String) (w : Value)
    (st' : ConvState) (o : Obj),
    convertFields dir lk h n st t a flds path = Except.ok (w, st') →
    st.out.lookup t = Option.some o →
    t < st.ctr →
    w = Value.ref t
    ∧ ∃ ps : List (String × Value),
        ps.map Prod.fst = flds.map Prod.fst
        ∧ st'.out.lookup t = Option.some
            { cls := o.cls,
              fields := List.foldl (fun fs p => dictSet fs p.1 p.2) o.fields ps } := by
  intro n
  induction n with
  | zero =>
    intro dir lk h st t a flds path w st' o hc hl ht
    cases flds with
    | nil =>
      rw [convertFields_nil] at hc
      cases hc
      exact ⟨rfl, [], rfl, by cases o; exact hl⟩
    | cons f flds => rw [convertFields_zero_cons] at hc; cases hc
  | succ n ih =>
    intro dir lk h st t a flds path w st' o hc hl ht
    cases flds with
    | nil =>
      rw [convertFields_nil] at hc
      cases hc
      exact ⟨rfl, [], rfl, by cases o; exact hl⟩
    | cons f flds =>
      obtain ⟨name, fs⟩ := f
      rw [convertFields_cons] at hc
      split at hc
      · cases hc
      · rename_i d hd
        split at hc
        · cases hc
        · rename_i w1 st1 h1
          have hext := (convert_extends n).1 _ _ _ _ _ _ _ _ _ h1
          have hl1 : st1.out.lookup t = Option.some o := by
            rw [hext.2.2 t ht]; exact hl
          have ht1 : t < st1.ctr := Nat.lt_of_lt_of_le ht hext.1
          have hlA := setTargetAttr_lookup hl1 name w1
          have htA : t < (setTargetAttr st1 t name w1).ctr := by
            rw [setTargetAttr_ctr]; exact ht1
          obtain ⟨hw, ps, hps, hout⟩ :=
            ih dir lk h (setTargetAttr st1 t name w1) t a flds path w st' _
              hc hlA htA
          refine ⟨hw, (name, w1) :: ps, by simp [hps], ?_⟩
          rw [hout]
          rfl

theorem foldl_dictSet_names : ∀ (ps : List (String × Value))
    (fs : List (String × Value)),
    (ps.map Prod.fst).Nodup →
    (∀ nm, nm ∈ ps.map Prod.fst → nm ∉ fs.map Prod.fst) →
    (List.foldl (fun fs p => dictSet fs p.1 p.2) fs ps).map Prod.fst
      = fs.map Prod.fst ++ ps.map Prod.fst := by
  intro ps
  induction ps with
  | nil => intro fs _ _; simp
  | cons p ps ih =>
    intro fs hnd hdisj
    obtain ⟨name, v⟩ := p
    simp only [List.map_cons, List.nodup_cons] at hnd
    have hstep : dictSet fs name v = fs ++ [(name, v)] :=
      dictSet_append fs name v (hdisj name (by simp))
    simp only [List.foldl_cons]
    rw [hstep, ih (fs ++ [(name, v)]) hnd.2]
    · simp
    · intro nm hnm
      simp only [List.map_append, List.map_cons]
      simp only [List.mem_append, List.mem_map]
      rintro (hin | hin)
      · exact hdisj nm (by simp [hnm]) (by simpa using hin)
      · simp at hin
        rw [hin] at hnm
        exact hnd.1 hnm

/-- C10.  During restoration the domain class's constructor never runs:
`makeNewConvert` produces a fresh *bare* object (empty field dict) whose
class is reassigned to `stringsToClasses[classString]`, and the field loop
then sets exactly the schema-declared fields on it — the restored object's
field names are precisely the schema's field names, in schema order. -/
theorem spec_c10 (lk : Lookups) (h : Heap) (n : Nat) (st : ConvState)
    (a : Addr) (os : ObjectSchema) (klass : String) (s : SchemaItem)
    (path : String) (w : Value) (st' : ConvState)
    (hmiss : (st : ConvState).memo.lookup a = Option.none)
    (hos : getObjectSchema Dir.restore lk h a = Except.ok os)
    (hklass : lk.stringsToClasses.lookup os.classString = Option.some klass)
    (hnodup : (os.fields.map Prod.fst).Nodup)
    (hconv : convertObject Dir.restore lk h n st (Value.ref a) s path
      = Except.ok (w, st')) :
    w = Value.ref st.ctr
    ∧ ∃ flds : List (String × Value),
        st'.out.lookup st.ctr = Option.some { cls := klass, fields := flds }
        ∧ flds.map Prod.fst = os.fields.map Prod.fst := by
  rw [convertObject_ref, hmiss] at hconv
  dsimp only at hconv
  cases n with
  | zero => cases hconv
  | succ n' =>
    rw [hos] at hconv
    dsimp only at hconv
    rw [show makeNewConvert Dir.restore lk os.classString st
        = Except.ok (st.ctr,
            { st with out := (st.ctr, { cls := klass, fields := [] }) :: st.out
                      ctr := st.ctr + 1 }) by
      rw [makeNewConvert, hklass]] at hconv
    dsimp only at hconv
    have hl2 : (({ st with
          out := (st.ctr, ({ cls := klass, fields := [] } : Obj)) :: st.out
          ctr := st.ctr + 1 } : ConvState)
        |> fun st1 => ({ st1 with memo := (a, Value.ref st.ctr) :: st1.memo }
            : ConvState)).out.lookup st.ctr
        = Option.some { cls := klass, fields := [] } := by
      exact lookup_cons_self
    obtain ⟨hw, ps, hps, hout⟩ :=
      convertFields_names n' Dir.restore lk h _ st.ctr a os.fields path w st'
        { cls := klass, fields := [] } hconv hl2 (Nat.lt_succ_self _)
    refine ⟨hw, List.foldl (fun fs p => dictSet fs p.1 p.2) [] ps, hout, ?_⟩
    rw [foldl_dictSet_names ps [] (by rw [hps]; exact hnodup) (by simp)]
    simpa using hps

/-- Schema for a two-scalar-field class used by the C10 witness. -/
def osPoint : ObjectSchema :=
  { klass := "Point", classString := "point",
    fields := [("x", SchemaItem.simple ScalarKind.int false),
               ("y", SchemaItem.simple ScalarKind.int false)] }

/-- A stored record for the C10 witness. -/
def pointFlatHeap : Heap :=
  [(0, { cls := "point", fields := [("x", Value.int 3), ("y", Value.int 4)] })]

/-- The state a successful restore of the point record ends in. -/
def pointOutState : ConvState :=
  { memo := [(0, Value.ref 0)],
    out := [(0, { cls := "Point",
                  fields := [("x", Value.int 3), ("y", Value.int 4)] }),
            (0, { cls := "Point", fields := [("x", Value.int 3)] }),
            (0, { cls := "Point", fields := [] })],
    ctr := 1 }

/-- C10 witness. -/
theorem spec_c10_witness :
    Value.ref 0 = Value.ref (0 : Nat)
    ∧ ∃ flds : List (String × Value),
        pointOutState.out.lookup 0
          = Option.some { cls := "Point", fields := flds }
        ∧ flds.map Prod.fst = osPoint.fields.map Prod.fst := by
  exact spec_c10 (buildLookups [osPoint]) pointFlatHeap 9
    { memo := [], out := [], ctr := 0 } 0 osPoint "Point"
    (SchemaItem.object "Point") "p" (Value.ref 0) pointOutState
    (by decide) (by decide) (by decide) (by decide) (by decide)

/-
C2: round-trip machinery.

The round-trip theorem is stated through a fuel-indexed denotation of
heap values into finite trees (possible because the claim restricts to
acyclic graphs): two values denote the same tree exactly when they are
structurally equal field by field — scalars equal, sequences equal in
order and length, mappings equal entry-wise, objects compared on their
schema-declared fields with the stable class string as tag.
-/

/-- The schema lookup a conversion direction applies to a *source* class
tag: the save path resolves a live class through `objectSchemaLookup`
(lines 215-216), the restore path resolves a stored class string through
`stringsToClasses` and then `objectSchemaLookup` (lines 237-239). -/
def srcSchema (dir : Dir) (lk : Lookups) (tag : String) : Option ObjectSchema :=
  match dir with
  | Dir.save => lk.objectSchemaLookup.lookup tag
  | Dir.restore =>
    match lk.stringsToClasses.lookup tag with
    | Option.some klass => lk.objectSchemaLookup.lookup klass
    | Option.none => Option.none

/-- The class tag `makeNewConvert` stamps on the target object: the class
string when saving, `stringsToClasses[classString]` when restoring. -/
def tgtTag (dir : Dir) (lk : Lookups) (os : ObjectSchema) : Option String :=
  match dir with
  | Dir.save => Option.some os.classString
  | Dir.restore => lk.stringsToClasses.lookup os.classString

/-- Canonical resolver for denotation: class tag to (stable class string,
schema field names). -/
def resolveT (dir : Dir) (lk : Lookups) (tag : String) :
    Option (String × List String) :=
  match srcSchema dir lk tag with
  | Option.some os => Option.some (os.classString, os.fields.map Prod.fst)
  | Option.none => Option.none

/-- Finite trees: the common denotation of live object graphs and flat
record graphs, with objects tagged by their stable class string and
carrying their schema fields in schema order. -/
inductive VTree where
  | none
  | int (i : Int)
  | text (s : String)
  | bool (b : Bool)
  | binary (bs : List Nat)
  | list (ts : List VTree)
  | dict (es : List (VTree × VTree))
  | obj (tag : String) (fields : List (String × VTree))

mutual

/-- The addresses referenced by a value (one level; lists and dicts
traversed structurally, the heap not followed). -/
def refsOf : Value → List Addr
  | Value.ref a => [a]
  | Value.list xs => refsOfList xs
  | Value.dict es => refsOfDict es
  | _ => []

def refsOfList : List Value → List Addr
  | [] => []
  | x :: xs => refsOf x ++ refsOfList xs

def refsOfDict : List (Value × Value) → List Addr
  | [] => []
  | (k, v) :: es => refsOf k ++ refsOf v ++ refsOfDict es

end

/-- The addresses referenced by an object's field values. -/
def refsOfFields : List (String × Value) → List Addr
  | [] => []
  | (_, v) :: fs => refsOf v ++ refsOfFields fs

/-- An acyclicity certificate: along every reference out of a live heap
object, the given rank strictly decreases, and the reference is live. -/
def rankOKb (h : Heap) (rank : Addr → Nat) : Bool :=
  h.all (fun p =>
    match h.lookup p.1 with
    | Option.some o =>
      (refsOfFields o.fields).all
        (fun b => (h.lookup b).isSome && decide (rank b < rank p.1))
    | Option.none => true)

/-- Mutual consistency of the three lookup tables, as built from a valid
schema set: `objectSchemaLookup` is keyed by the schema's own class, the
two string maps invert each other through it, and schema field names are
distinct. -/
def lookOK (lk : Lookups) : Bool :=
  decide ((lk.objectSchemaLookup.map Prod.fst).Nodup)
  && lk.objectSchemaLookup.all (fun p =>
      p.2.klass == p.1
      && lk.stringsToClasses.lookup p.2.classString == Option.some p.1
      && lk.classesToStrings.lookup p.1 == Option.some p.2.classString
      && decide ((p.2.fields.map Prod.fst).Nodup))
  && lk.stringsToClasses.all (fun q =>
      match lk.objectSchemaLookup.lookup q.2 with
      | Option.some os => os.classString == q.1
      | Option.none => false)

/-- Does the scalar schema node allow `None`? -/
def schemaNoneOk : SchemaItem → Bool
  | SchemaItem.simple _ b => b
  | _ => false

/-- Are the keys of a value dictionary pairwise distinct? -/
def vKeysNodup : List (Value × Value) → Bool
  | [] => true
  | (k, _) :: es => es.all (fun q => !(vbeq k q.1)) && vKeysNodup es

mutual

/-- Conformance of a source value to a schema node, with the same fuel
discipline as the converter: the checks that make every validation, schema
resolution and attribute access on the conversion path succeed. -/
def confV (dir : Dir) (lk : Lookups) (h : Heap) :
    Nat → Value → SchemaItem → Bool
  | 0, _, _ => false
  | n + 1, v, s =>
    match v, s with
    | Value.none, s => schemaNoneOk s
    | Value.int _, SchemaItem.simple ScalarKind.int _ => true
    | Value.text _, SchemaItem.simple ScalarKind.text _ => true
    | Value.bool _, SchemaItem.simple ScalarKind.bool _ => true
    | Value.binary _, SchemaItem.simple ScalarKind.binary _ => true
    | Value.list xs, SchemaItem.list c => confList dir lk h n xs c
    | Value.dict es, SchemaItem.dict ks vs =>
      vKeysNodup es && confDict dir lk h n es ks vs
    | Value.ref a, SchemaItem.object _ => confObj dir lk h n a
    | _, _ => false

def confList (dir : Dir) (lk : Lookups) (h : Heap) :
    Nat → List Value → SchemaItem → Bool
  | _, [], _ => true
  | 0, _ :: _, _ => false
  | n + 1, x :: xs, c => confV dir lk h n x c && confList dir lk h n xs c

def confDict (dir : Dir) (lk : Lookups) (h : Heap) :
    Nat → List (Value × Value) → SchemaItem → SchemaItem → Bool
  | _, [], _, _ => true
  | 0, _ :: _, _, _ => false
  | n + 1, (k, v) :: es, ks, vs =>
    confV dir lk h n k ks && confV dir lk h n v vs
      && confDict dir lk h n es ks vs

def confObj (dir : Dir) (lk : Lookups) (h : Heap) : Nat → Addr → Bool
  | n, a =>
    match h.lookup a with
    | Option.none => false
    | Option.some o =>
      match srcSchema dir lk o.cls with
      | Option.none => false
      | Option.some os =>
        match n with
        | 0 => false
        | n' + 1 => confFields dir lk h n' o.fields os.fields

def confFields (dir : Dir) (lk : Lookups) (h : Heap) :
    Nat → List (String × Value) → List (String × SchemaItem) → Bool
  | _, _, [] => true
  | 0, _, _ :: _ => false
  | n + 1, flds, (nm, fs) :: rest =>
    match flds.lookup nm with
    | Option.none => false
    | Option.some d => confV dir lk h n d fs && confFields dir lk h n flds rest

end

mutual

/-- Fuel-indexed denotation of a heap value into a tree, following the
converter's fuel discipline; `resolve` maps a class tag to the canonical
tag and the schema field names. -/
def denoteV (resolve : String → Option (String × List String)) (h : Heap) :
    Nat → Value → Option VTree
  | 0, _ => Option.none
  | n + 1, v =>
    match v with
    | Value.none => Option.some VTree.none
    | Value.int i => Option.some (VTree.int i)
    | Value.text s => Option.some (VTree.text s)
    | Value.bool b => Option.some (VTree.bool b)
    | Value.binary bs => Option.some (VTree.binary bs)
    | Value.list xs =>
      match denoteList resolve h n xs with
      | Option.some ts => Option.some (VTree.list ts)
      | Option.none => Option.none
    | Value.dict es =>
      match denoteDict resolve h n es with
      | Option.some tes => Option.some (VTree.dict tes)
      | Option.none => Option.none
    | Value.ref a => denoteObj resolve h n a

def denoteList (resolve : String → Option (String × List String)) (h : Heap) :
    Nat → List Value → Option (List VTree)
  | _, [] => Option.some []
  | 0, _ :: _ => Option.none
  | n + 1, x :: xs =>
    match denoteV resolve h n x, denoteList resolve h n xs with
    | Option.some t, Option.some ts => Option.some (t :: ts)
    | _, _ => Option.none

def denoteDict (resolve : String → Option (String × List String)) (h : Heap) :
    Nat → List (Value × Value) → Option (List (VTree × VTree))
  | _, [] => Option.some []
  | 0, _ :: _ => Option.none
  | n + 1, (k, v) :: es =>
    match denoteV resolve h n k, denoteV resolve h n v,
        denoteDict resolve h n es with
    | Option.some tk, Option.some tv, Option.some tes =>
      Option.some ((tk, tv) :: tes)
    | _, _, _ => Option.none

def denoteObj (resolve : String → Option (String × List String)) (h : Heap) :
    Nat → Addr → Option VTree
  | n, a =>
    match h.lookup a with
    | Option.none => Option.none
    | Option.some o =>
      match resolve o.cls with
      | Option.none => Option.none
      | Option.some (tag, names) =>
        match n with
        | 0 => Option.none
        | n' + 1 =>
          match denoteFields resolve h n' o.fields names with
          | Option.some tfs => Option.some (VTree.obj tag tfs)
          | Option.none => Option.none

def denoteFields (resolve : String → Option (String × List String))
    (h : Heap) :
    Nat → List (String × Value) → List String → Option (List (String × VTree))
  | _, _, [] => Option.some []
  | 0, _, _ :: _ => Option.none
  | n + 1, flds, nm :: names =>
    match flds.lookup nm with
    | Option.none => Option.none
    | Option.some d =>
      match denoteV resolve h n d, denoteFields resolve h n flds names with
      | Option.some t, Option.some tfs => Option.some ((nm, t) :: tfs)
      | _, _ => Option.none

end

/-- Denotation of a root list. -/
def denoteForest (resolve : String → Option (String × List String))
    (h : Heap) (n : Nat) : List Value → Option (List VTree)
  | [] => Option.some []
  | v :: vs =>
    match denoteV resolve h n v, denoteForest resolve h n vs with
    | Option.some t, Option.some ts => Option.some (t :: ts)
    | _, _ => Option.none

/-- Conformance of a root list: every root is an object reference to a
conforming, schema-registered object. -/
def rootsOK (dir : Dir) (lk : Lookups) (h : Heap) (n : Nat) :
    List Value → Bool
  | [] => true
  | v :: vs =>
    (match v with
     | Value.ref a => confObj dir lk h n a
     | _ => false)
    && rootsOK dir lk h n vs

mutual

/-- The conversion correspondence: a source value is related to its
converted image.  Scalars and `None` pass through unchanged, sequences and
mappings correspond pointwise, and an object reference corresponds to the
memoized target installed for its address.  The relation only reads the
memo, so it persists as the memo grows. -/
inductive REL (st : ConvState) : Value → Value → Prop where
  | none : REL st Value.none Value.none
  | int (i : Int) : REL st (Value.int i) (Value.int i)
  | text (s : String) : REL st (Value.text s) (Value.text s)
  | bool (b : Bool) : REL st (Value.bool b) (Value.bool b)
  | binary (bs : List Nat) : REL st (Value.binary bs) (Value.binary bs)
  | list {xs ys : List Value} : RELlist st xs ys →
      REL st (Value.list xs) (Value.list ys)
  | dict {es fs : List (Value × Value)} : RELdict st es fs →
      REL st (Value.dict es) (Value.dict fs)
  | ref {a t : Addr} : st.memo.lookup a = Option.some (Value.ref t) →
      REL st (Value.ref a) (Value.ref t)

/-- Pointwise `REL` on lists. -/
inductive RELlist (st : ConvState) : List Value → List Value → Prop where
  | nil : RELlist st [] []
  | cons {x y : Value} {xs ys : List Value} : REL st x y →
      RELlist st xs ys → RELlist st (x :: xs) (y :: ys)

/-- Pointwise `REL` on dict entries. -/
inductive RELdict (st : ConvState) :
    List (Value × Value) → List (Value × Value) → Prop where
  | nil : RELdict st [] []
  | cons {k k' v v' : Value} {es fs : List (Value × Value)} : REL st k k' →
      REL st v v' → RELdict st es fs →
      RELdict st ((k, v) :: es) ((k', v') :: fs)

end

mutual

theorem REL_mono {st st' : ConvState}
    (hm : ∀ a w, st.memo.lookup a = Option.some w →
      st'.memo.lookup a = Option.some w) :
    ∀ {v w : Value}, REL st v w → REL st' v w
  | _, _, REL.none => REL.none
  | _, _, REL.int i => REL.int i
  | _, _, REL.text s => REL.text s
  | _, _, REL.bool b => REL.bool b
  | _, _, REL.binary bs => REL.binary bs
  | _, _, REL.list hl => REL.list (RELlist_mono hm hl)
  | _, _, REL.dict hd => RELdict_keep hm hd
  | _, _, REL.ref hr => REL.ref (hm _ _ hr)

theorem RELlist_mono {st st' : ConvState}
    (hm : ∀ a w, st.memo.lookup a = Option.some w →
      st'.memo.lookup a = Option.some w) :
    ∀ {xs ys : List Value}, RELlist st xs ys → RELlist st' xs ys
  | _, _, RELlist.nil => RELlist.nil
  | _, _, RELlist.cons h hl => RELlist.cons (REL_mono hm h) (RELlist_mono hm hl)

theorem RELdict_keep {st st' : ConvState}
    (hm : ∀ a w, st.memo.lookup a = Option.some w →
      st'.memo.lookup a = Option.some w) :
    ∀ {es fs : List (Value × Value)}, RELdict st es fs →
      REL st' (Value.dict es) (Value.dict fs)
  | _, _, hd => REL.dict (RELdict_mono hm hd)

theorem RELdict_mono {st st' : ConvState}
    (hm : ∀ a w, st.memo.lookup a = Option.some w →
      st'.memo.lookup a = Option.some w) :
    ∀ {es fs : List (Value × Value)}, RELdict st es fs → RELdict st' es fs
  | _, _, RELdict.nil => RELdict.nil
  | _, _, RELdict.cons hk hv hd =>
    RELdict.cons (REL_mono hm hk) (REL_mono hm hv) (RELdict_mono hm hd)

end

/-- Injectivity of the memo as a finite map: no two source addresses share
a target. -/
def MemoInj (st : ConvState) : Prop :=
  ∀ a1 a2 w, st.memo.lookup a1 = Option.some w →
    st.memo.lookup a2 = Option.some w → a1 = a2

mutual

theorem REL_inj {st : ConvState} (hinj : MemoInj st) :
    ∀ {v1 v2 w : Value}, REL st v1 w → REL st v2 w → v1 = v2
  | _, _, _, REL.none, REL.none => rfl
  | _, _, _, REL.int _, REL.int _ => rfl
  | _, _, _, REL.text _, REL.text _ => rfl
  | _, _, _, REL.bool _, REL.bool _ => rfl
  | _, _, _, REL.binary _, REL.binary _ => rfl
  | _, _, _, REL.list h1, REL.list h2 =>
    congrArg Value.list (RELlist_inj hinj h1 h2)
  | _, _, _, REL.dict h1, REL.dict h2 =>
    congrArg Value.dict (RELdict_inj hinj h1 h2)
  | _, _, _, REL.ref h1, REL.ref h2 =>
    congrArg Value.ref (hinj _ _ _ h1 h2)

theorem RELlist_inj {st : ConvState} (hinj : MemoInj st) :
    ∀ {xs1 xs2 ys : List Value}, RELlist st xs1 ys → RELlist st xs2 ys →
      xs1 = xs2
  | _, _, _, RELlist.nil, RELlist.nil => rfl
  | _, _, _, RELlist.cons h1 hl1, RELlist.cons h2 hl2 => by
    rw [REL_inj hinj h1 h2, RELlist_inj hinj hl1 hl2]

theorem RELdict_inj {st : ConvState} (hinj : MemoInj st) :
    ∀ {es1 es2 fs : List (Value × Value)}, RELdict st es1 fs →
      RELdict st es2 fs → es1 = es2
  | _, _, _, RELdict.nil, RELdict.nil => rfl
  | _, _, _, RELdict.cons hk1 hv1 hd1, RELdict.cons hk2 hv2 hd2 => by
    rw [REL_inj hinj hk1 hk2, REL_inj hinj hv1 hv2, RELdict_inj hinj hd1 hd2]

end

theorem lookup_mem {α β : Type} [BEq α] [LawfulBEq α] :
    ∀ {l : List (α × β)} {k : α} {v : β},
      l.lookup k = Option.some v → (k, v) ∈ l := by
  intro l
  induction l with
  | nil => intro k v h; cases h
  | cons p l ih =>
    intro k v h
    obtain ⟨k', v'⟩ := p
    rw [List.lookup] at h
    by_cases hk : k == k'
    · rw [hk] at h
      simp only [cond_true] at h
      cases h
      rw [eq_of_beq hk]
      exact List.mem_cons_self _ _
    · rw [Bool.not_eq_true] at hk
      rw [hk] at h
      simp only [cond_false] at h
      exact List.mem_cons_of_mem _ (ih h)

theorem lookup_none_not_mem {α β : Type} [BEq α] [LawfulBEq α] :
    ∀ {l : List (α × β)} {k : α},
      l.lookup k = Option.none → ∀ v, (k, v) ∉ l := by
  intro l
  induction l with
  | nil => intro k _ v hmem; cases hmem
  | cons p l ih =>
    intro k h v hmem
    obtain ⟨k', v'⟩ := p
    rw [List.lookup] at h
    by_cases hk : k == k'
    · rw [hk] at h; cases h
    · rw [Bool.not_eq_true] at hk
      rw [hk] at h
      simp only [cond_false] at h
      rcases List.mem_cons.mp hmem with hEq | hmem'
      · cases hEq
        simp at hk
      · exact ih h v hmem'

theorem vdictSet_append (es : List (Value × Value)) (k v : Value)
    (h : k ∉ es.map Prod.fst) : vdictSet es k v = es ++ [(k, v)] := by
  induction es with
  | nil => rfl
  | cons e es ih =>
    obtain ⟨k', v'⟩ := e
    rw [List.map_cons, List.mem_cons] at h
    push_neg at h
    rw [vdictSet, if_neg (fun hEq => h.1 hEq.symm), ih h.2]
    rfl

theorem refsOf_lookup_subset :
    ∀ {flds : List (String × Value)} {nm : String} {d : Value},
      flds.lookup nm = Option.some d → ∀ c ∈ refsOf d, c ∈ refsOfFields flds := by
  intro flds
  induction flds with
  | nil => intro nm d h; cases h
  | cons p flds ih =>
    intro nm d h c hc
    obtain ⟨nm', v'⟩ := p
    rw [List.lookup] at h
    by_cases hk : nm == nm'
    · rw [hk] at h
      simp only [cond_true] at h
      cases h
      exact List.mem_append.mpr (Or.inl hc)
    · rw [Bool.not_eq_true] at hk
      rw [hk] at h
      simp only [cond_false] at h
      exact List.mem_append.mpr (Or.inr (ih h c hc))

/-- The class tag `makeNewConvert` will stamp on a target created for a
record with class string `cs`. -/
def tgtTagStr (dir : Dir) (lk : Lookups) (cs : String) : Option String :=
  match dir with
  | Dir.save => Option.some cs
  | Dir.restore => lk.stringsToClasses.lookup cs

theorem makeNewConvert_spec2 {dir : Dir} {lk : Lookups} {cs : String}
    {st : ConvState} {t : Addr} {st1 : ConvState}
    (h : makeNewConvert dir lk cs st = Except.ok (t, st1)) :
    ∃ tc, tgtTagStr dir lk cs = Option.some tc ∧ t = st.ctr
      ∧ st1 = { memo := st.memo,
                out := (st.ctr, { cls := tc, fields := [] }) :: st.out,
                ctr := st.ctr + 1 } := by
  cases dir with
  | save =>
    simp [makeNewConvert] at h
    exact ⟨cs, rfl, h.1.symm, by rw [← h.2]⟩
  | restore =>
    rw [makeNewConvert] at h
    split at h
    · cases h
    · rename_i klass hk
      simp at h
      exact ⟨klass, hk, h.1.symm, by rw [← h.2]⟩

theorem makeNewConvert_ok {dir : Dir} {lk : Lookups} {cs : String}
    {tc : String} (st : ConvState) (h : tgtTagStr dir lk cs = Option.some tc) :
    makeNewConvert dir lk cs st
      = Except.ok (st.ctr,
          { memo := st.memo,
            out := (st.ctr, { cls := tc, fields := [] }) :: st.out,
            ctr := st.ctr + 1 }) := by
  cases dir with
  | save =>
    rw [tgtTagStr] at h
    cases h
    rfl
  | restore =>
    rw [tgtTagStr] at h
    rw [makeNewConvert, h]

/-- The invariant carried by one memo entry.  `X` is the set of source
addresses whose conversion is still in progress: their targets exist and
carry the right class tag but are not yet complete; entries outside `X`
additionally have all schema fields set, related by `REL` to the source's
fields, and carry no stray field. -/
def MemoEntryOK (dir : Dir) (lk : Lookups) (h : Heap) (st : ConvState)
    (X : List Addr) (a : Addr) (w : Value) : Prop :=
  ∃ t, w = Value.ref t ∧ t < st.ctr
    ∧ ∃ o, h.lookup a = Option.some o
    ∧ ∃ os, srcSchema dir lk o.cls = Option.some os
    ∧ ∃ tob tc, st.out.lookup t = Option.some tob
      ∧ tgtTagStr dir lk os.classString = Option.some tc ∧ tob.cls = tc
      ∧ (a ∉ X →
          (∀ nm fs, (nm, fs) ∈ os.fields →
            ∃ d w', o.fields.lookup nm = Option.some d
              ∧ tob.fields.lookup nm = Option.some w' ∧ REL st d w')
          ∧ (∀ p ∈ tob.fields,
              ∃ d, o.fields.lookup p.1 = Option.some d ∧ REL st d p.2))

/-- The conversion invariant: every memo entry is sound (complete outside
`X`), the memo is injective with distinct keys, addresses at or above the
counter are unallocated, and every target object is some entry's target. -/
def INV (dir : Dir) (lk : Lookups) (h : Heap) (st : ConvState)
    (X : List Addr) : Prop :=
  (∀ a w, st.memo.lookup a = Option.some w → MemoEntryOK dir lk h st X a w)
  ∧ MemoInj st
  ∧ (st.memo.map Prod.fst).Nodup
  ∧ (∀ u, st.ctr ≤ u → st.out.lookup u = Option.none)
  ∧ (∀ t o, st.out.lookup t = Option.some o →
      ∃ a, st.memo.lookup a = Option.some (Value.ref t))

theorem INV_empty (dir : Dir) (lk : Lookups) (h : Heap) (X : List Addr) :
    INV dir lk h { memo := [], out := [], ctr := 0 } X := by
  refine ⟨fun a w hw => ?_, fun a1 a2 w h1 _ => ?_,
    List.nodup_nil, fun u _ => rfl, fun t o hw => ?_⟩
  · cases hw
  · cases h1
  · cases hw

/-- `REL` transport along a state whose memo contains the old one. -/
theorem MemoEntryOK_mono {dir : Dir} {lk : Lookups} {h : Heap}
    {st : ConvState} (st' : ConvState) {X : List Addr} {a : Addr} {w : Value}
    (hm : ∀ a0 w0, st.memo.lookup a0 = Option.some w0 →
      st'.memo.lookup a0 = Option.some w0)
    (hctr : st.ctr ≤ st'.ctr)
    (hout : ∀ t0 ob, st.out.lookup t0 = Option.some ob → t0 < st.ctr →
      st'.out.lookup t0 = Option.some ob)
    (he : MemoEntryOK dir lk h st X a w) : MemoEntryOK dir lk h st' X a w := by
  obtain ⟨t, hw, ht, o, ho, os, hos, tob, tc, htob, htc, hcls, hcomp⟩ := he
  refine ⟨t, hw, Nat.lt_of_lt_of_le ht hctr, o, ho, os, hos, tob, tc,
    hout t tob htob ht, htc, hcls, fun hX => ?_⟩
  obtain ⟨hfwd, hbwd⟩ := hcomp hX
  refine ⟨fun nm fs hmem => ?_, fun p hp => ?_⟩
  · obtain ⟨d, w', hd, hw', hr⟩ := hfwd nm fs hmem
    exact ⟨d, w', hd, hw', REL_mono hm hr⟩
  · obtain ⟨d, hd, hr⟩ := hbwd p hp
    exact ⟨d, hd, REL_mono hm hr⟩

/-- `setTargetAttr` on the target of an in-progress entry preserves the
invariant. -/
theorem INV_setTargetAttr {dir : Dir} {lk : Lookups} {h : Heap}
    {st : ConvState} {X : List Addr} {a t : Addr} (name : String) (w : Value)
    (hI : INV dir lk h st X)
    (hat : st.memo.lookup a = Option.some (Value.ref t)) (haX : a ∈ X) :
    INV dir lk h (setTargetAttr st t name w) X := by
  obtain ⟨hentries, hinj, hnd, hfresh, htgt⟩ := hI
  have hmemoEq := setTargetAttr_memo st t name w
  have hctrEq := setTargetAttr_ctr st t name w
  have houtNe : ∀ u, u ≠ t →
      (setTargetAttr st t name w).out.lookup u = st.out.lookup u := by
    intro u hu
    unfold setTargetAttr
    cases st.out.lookup t with
    | none => rfl
    | some o => exact lookup_cons_ne hu
  refine ⟨?_, ?_, ?_, ?_, ?_⟩
  · intro b wb hwb
    rw [hmemoEq] at hwb
    obtain ⟨t', hw', ht', o, ho, os, hos, tob, tc, htob, htc, hcls, hcomp⟩ :=
      hentries b wb hwb
    by_cases hbt : t' = t
    · -- this is the entry being mutated; it must be `a`'s (memo injective)
      subst hbt
      have hba : b = a := hinj b a _ (hw' ▸ hwb) hat
      subst hba
      refine ⟨t', hw', by rw [hctrEq]; exact ht', o, ho, os, hos,
        { tob with fields := dictSet tob.fields name w }, tc,
        setTargetAttr_lookup htob name w, htc, hcls, fun hX => ?_⟩
      exact absurd haX hX
    · refine ⟨t', hw', by rw [hctrEq]; exact ht', o, ho, os, hos, tob, tc,
        by rw [houtNe t' hbt]; exact htob, htc, hcls, fun hX => ?_⟩
      obtain ⟨hfwd, hbwd⟩ := hcomp hX
      refine ⟨fun nm fs hmem => ?_, fun p hp => ?_⟩
      · obtain ⟨d, w', hd, hw'2, hr⟩ := hfwd nm fs hmem
        exact ⟨d, w', hd, hw'2, REL_mono (by rw [hmemoEq]; exact fun _ _ h => h) hr⟩
      · obtain ⟨d, hd, hr⟩ := hbwd p hp
        exact ⟨d, hd, REL_mono (by rw [hmemoEq]; exact fun _ _ h => h) hr⟩
  · intro a1 a2 wq h1 h2
    rw [hmemoEq] at h1 h2
    exact hinj a1 a2 wq h1 h2
  · rw [hmemoEq]; exact hnd
  · intro u hu
    rw [hctrEq] at hu
    have hut : u ≠ t := by
      intro hEq
      subst hEq
      -- `t` is allocated: it is below the counter by `a`'s entry
      obtain ⟨t', hw', ht', _⟩ := hentries a _ hat
      cases hw'
      exact Nat.lt_irrefl _ (Nat.lt_of_lt_of_le ht' hu)
    rw [houtNe u hut]
    exact hfresh u hu
  · intro u o hu
    by_cases hut : u = t
    · subst hut
      exact ⟨a, by rw [hmemoEq]; exact hat⟩
    · rw [houtNe u hut] at hu
      obtain ⟨b, hb⟩ := htgt u o hu
      exact ⟨b, by rw [hmemoEq]; exact hb⟩

/-- Allocating a fresh target and installing its memo entry turns the
invariant for `X` into the invariant for `a :: X`. -/
theorem INV_alloc {dir : Dir} {lk : Lookups} {h : Heap} {st : ConvState}
    {X : List Addr} {a : Addr} {o : Obj} {os : ObjectSchema} {tc : String}
    (hI : INV dir lk h st X)
    (hm : st.memo.lookup a = Option.none)
    (ho : h.lookup a = Option.some o)
    (hos : srcSchema dir lk o.cls = Option.some os)
    (htc : tgtTagStr dir lk os.classString = Option.some tc) :
    INV dir lk h
      { memo := (a, Value.ref st.ctr) :: st.memo,
        out := (st.ctr, { cls := tc, fields := [] }) :: st.out,
        ctr := st.ctr + 1 } (a :: X) := by
  obtain ⟨hentries, hinj, hnd, hfresh, htgt⟩ := hI
  have hmono : ∀ a0 w0, st.memo.lookup a0 = Option.some w0 →
      ((a, Value.ref st.ctr) :: st.memo).lookup a0 = Option.some w0 := by
    intro a0 w0 hw0
    have hne : a0 ≠ a := by
      intro hEq; rw [hEq, hm] at hw0; cases hw0
    rw [lookup_cons_ne hne]; exact hw0
  have houtmono : ∀ t0 ob, st.out.lookup t0 = Option.some ob → t0 < st.ctr →
      ((st.ctr, ({ cls := tc, fields := [] } : Obj)) :: st.out).lookup t0
        = Option.some ob := by
    intro t0 ob hob hlt
    rw [lookup_cons_ne (Nat.ne_of_lt hlt)]; exact hob
  refine ⟨?_, ?_, ?_, ?_, ?_⟩
  · intro b wb hwb
    by_cases hba : b = a
    · subst hba
      rw [lookup_cons_self] at hwb
      cases hwb
      exact ⟨st.ctr, rfl, Nat.lt_succ_self _, o, ho, os, hos,
        { cls := tc, fields := [] }, tc, lookup_cons_self, htc, rfl,
        fun hX => absurd (List.mem_cons_self _ _) hX⟩
    · rw [lookup_cons_ne hba] at hwb
      have he := hentries b wb hwb
      have he2 := MemoEntryOK_mono
        { memo := (a, Value.ref st.ctr) :: st.memo,
          out := (st.ctr, { cls := tc, fields := [] }) :: st.out,
          ctr := st.ctr + 1 } hmono (Nat.le_succ _) houtmono he
      -- weaken from `X` completeness to `a :: X` completeness
      obtain ⟨t, hw, ht, o2, ho2, os2, hos2, tob, tc2, htob, htc2, hcls, hcomp⟩ := he2
      exact ⟨t, hw, ht, o2, ho2, os2, hos2, tob, tc2, htob, htc2, hcls,
        fun hX => hcomp (fun hmem => hX (List.mem_cons_of_mem _ hmem))⟩
  · intro a1 a2 wq h1 h2
    by_cases h1a : a1 = a
    · subst h1a
      rw [lookup_cons_self] at h1
      cases h1
      by_cases h2a : a2 = a1
      · exact h2a.symm
      · rw [lookup_cons_ne h2a] at h2
        obtain ⟨t, hw, ht, _⟩ := hentries a2 _ h2
        cases hw
        exact absurd rfl (Nat.ne_of_lt ht)
    · rw [lookup_cons_ne h1a] at h1
      by_cases h2a : a2 = a
      · subst h2a
        rw [lookup_cons_self] at h2
        cases h2
        obtain ⟨t, hw, ht, _⟩ := hentries a1 _ h1
        cases hw
        exact absurd rfl (Nat.ne_of_lt ht)
      · rw [lookup_cons_ne h2a] at h2
        exact hinj a1 a2 wq h1 h2
  · show ((a, Value.ref st.ctr) :: st.memo).map Prod.fst |>.Nodup
    simp only [List.map_cons, List.nodup_cons]
    refine ⟨fun hmem => ?_, hnd⟩
    rcases List.mem_map.mp hmem with ⟨p, hp, hfst⟩
    obtain ⟨p1, p2⟩ := p
    cases hfst
    exact lookup_none_not_mem hm p2 hp
  · intro u hu
    have hu' : st.ctr + 1 ≤ u := hu
    have hne : u ≠ st.ctr := by omega
    show ((st.ctr, ({ cls := tc, fields := [] } : Obj)) :: st.out).lookup u
      = Option.none
    rw [lookup_cons_ne hne]
    exact hfresh u (by omega)
  · intro u ob hu
    by_cases hue : u = st.ctr
    · subst hue
      exact ⟨a, lookup_cons_self⟩
    · rw [lookup_cons_ne hue] at hu
      obtain ⟨b, hb⟩ := htgt u ob hu
      refine ⟨b, ?_⟩
      have hne : b ≠ a := by
        intro hEq; rw [hEq, hm] at hb; cases hb
      rw [lookup_cons_ne hne]; exact hb

theorem lookOK_osl {lk : Lookups} (hok : lookOK lk = true) :
    ∀ c os, lk.objectSchemaLookup.lookup c = Option.some os →
      os.klass = c ∧ lk.stringsToClasses.lookup os.classString = Option.some c
      ∧ lk.classesToStrings.lookup c = Option.some os.classString
      ∧ (os.fields.map Prod.fst).Nodup := by
  intro c os hc
  rw [lookOK] at hok
  simp only [Bool.and_eq_true] at hok
  have hmem := lookup_mem hc
  have hp := List.all_eq_true.mp hok.1.2 (c, os) hmem
  simp only [Bool.and_eq_true, beq_iff_eq, decide_eq_true_eq] at hp
  exact ⟨hp.1.1.1, hp.1.1.2, hp.1.2, hp.2⟩

theorem lookOK_stc {lk : Lookups} (hok : lookOK lk = true) :
    ∀ cs k, lk.stringsToClasses.lookup cs = Option.some k →
      ∃ os, lk.objectSchemaLookup.lookup k = Option.some os
        ∧ os.classString = cs := by
  intro cs k hc
  rw [lookOK] at hok
  simp only [Bool.and_eq_true] at hok
  have hmem := lookup_mem hc
  have hp := List.all_eq_true.mp hok.2 (cs, k) hmem
  dsimp only at hp
  split at hp
  · rename_i os hos
    exact ⟨os, hos, eq_of_beq hp⟩
  · cases hp

/-- A target class tag produced by `tgtTagStr` resolves in the target
side's schema lookup. -/
theorem tgtTag_resolves {dir : Dir} {lk : Lookups} (hok : lookOK lk = true)
    {os : ObjectSchema} {c : String} {tc : String}
    (hosl : lk.objectSchemaLookup.lookup c = Option.some os)
    (htc : tgtTagStr dir lk os.classString = Option.some tc) :
    ∃ os2, lk.objectSchemaLookup.lookup
        (match dir with
         | Dir.save => (lk.stringsToClasses.lookup tc).getD ""
         | Dir.restore => tc) = Option.some os2 := by
  cases dir with
  | save =>
    rw [tgtTagStr] at htc
    cases htc
    have hback := (lookOK_osl hok c os hosl).2.1
    rw [hback]
    exact ⟨os, hosl⟩
  | restore =>
    rw [tgtTagStr] at htc
    obtain ⟨os2, hos2, _⟩ := lookOK_stc hok _ _ htc
    exact ⟨os2, hos2⟩

theorem conf_validate {lk : Lookups} {h : Heap} : ∀ n : Nat,
    (∀ v s, confV Dir.save lk h n v s = true → validate lk h v s = true)
    ∧ (∀ xs c, confList Dir.save lk h n xs c = true → validateList lk h xs c = true)
    ∧ (∀ es ks vs, confDict Dir.save lk h n es ks vs = true →
        validateDict lk h es ks vs = true) := by
  intro n
  induction n with
  | zero =>
    refine ⟨fun v s hc => ?_, fun xs c hc => ?_, fun es ks vs hc => ?_⟩
    · rw [confV] at hc; cases hc
    · cases xs with
      | nil => rw [validateList]
      | cons x xs => rw [confList] at hc; cases hc
    · cases es with
      | nil => rw [validateDict]
      | cons e es =>
        obtain ⟨k, v⟩ := e
        rw [confDict] at hc; cases hc
  | succ n ih =>
    obtain ⟨ihV, ihL, ihD⟩ := ih
    refine ⟨fun v s hc => ?_, fun xs c hc => ?_, fun es ks vs hc => ?_⟩
    · cases v with
      | none =>
        cases s with
        | simple k no => exact hc
        | list c => cases hc
        | dict ks vs => cases hc
        | object k => cases hc
      | int i =>
        cases s with
        | simple k no =>
          cases k with
          | int => rfl
          | text => cases hc
          | bool => cases hc
          | binary => cases hc
        | list c => cases hc
        | dict ks vs => cases hc
        | object k => cases hc
      | text str =>
        cases s with
        | simple k no =>
          cases k with
          | int => cases hc
          | text => rfl
          | bool => cases hc
          | binary => cases hc
        | list c => cases hc
        | dict ks vs => cases hc
        | object k => cases hc
      | bool b =>
        cases s with
        | simple k no =>
          cases k with
          | int => cases hc
          | text => cases hc
          | bool => rfl
          | binary => cases hc
        | list c => cases hc
        | dict ks vs => cases hc
        | object k => cases hc
      | binary bs =>
        cases s with
        | simple k no =>
          cases k with
          | int => cases hc
          | text => cases hc
          | bool => cases hc
          | binary => rfl
        | list c => cases hc
        | dict ks vs => cases hc
        | object k => cases hc
      | list xs =>
        cases s with
        | simple k no => cases hc
        | list c => exact ihL xs c hc
        | dict ks vs => cases hc
        | object k => cases hc
      | dict es =>
        cases s with
        | simple k no => cases hc
        | list c => cases hc
        | dict ks vs =>
          have hc2 : (vKeysNodup es && confDict Dir.save lk h n es ks vs) = true := hc
          rw [Bool.and_eq_true] at hc2
          exact ihD es ks vs hc2.2
        | object k => cases hc
      | ref a =>
        cases s with
        | simple k no => cases hc
        | list c => cases hc
        | dict ks vs => cases hc
        | object k =>
          have hc2 : confObj Dir.save lk h n a = true := hc
          rw [confObj] at hc2
          show (match h.lookup a with
            | Option.some o => (lk.objectSchemaLookup.lookup o.cls).isSome
            | Option.none => false) = true
          cases hl : h.lookup a with
          | none => rw [hl] at hc2; cases hc2
          | some o =>
            rw [hl] at hc2
            dsimp only at hc2 ⊢
            cases hs : srcSchema Dir.save lk o.cls with
            | none => rw [hs] at hc2; cases hc2
            | some os =>
              rw [srcSchema] at hs
              rw [hs]
              rfl
    · cases xs with
      | nil => rw [validateList]
      | cons x xs =>
        rw [confList, Bool.and_eq_true] at hc
        rw [validateList, Bool.and_eq_true]
        exact ⟨ihV x c hc.1, ihL xs c hc.2⟩
    · cases es with
      | nil => rw [validateDict]
      | cons e es =>
        obtain ⟨k, v⟩ := e
        rw [confDict, Bool.and_eq_true, Bool.and_eq_true] at hc
        rw [validateDict, Bool.and_eq_true, Bool.and_eq_true]
        exact ⟨⟨ihV k ks hc.1.1, ihV v vs hc.1.2⟩, ihD es ks vs hc.2⟩

/-- In the restore direction, a converted value validates against the
target heap: the `postValidate` call of `convertData` succeeds on anything
produced from conforming input under the invariant. -/
theorem vtrans {lk : Lookups} {h : Heap} (hok : lookOK lk = true) :
    ∀ n : Nat,
    (∀ (st : ConvState) (X : List Addr) (v w : Value) (s : SchemaItem),
      INV Dir.restore lk h st X → confV Dir.restore lk h n v s = true →
      REL st v w → validate lk st.out w s = true)
    ∧ (∀ (st : ConvState) (X : List Addr) (xs ys : List Value) (c : SchemaItem),
      INV Dir.restore lk h st X → confList Dir.restore lk h n xs c = true →
      RELlist st xs ys → validateList lk st.out ys c = true)
    ∧ (∀ (st : ConvState) (X : List Addr) (es fs : List (Value × Value))
        (ks vs : SchemaItem),
      INV Dir.restore lk h st X → confDict Dir.restore lk h n es ks vs = true →
      RELdict st es fs → validateDict lk st.out fs ks vs = true) := by
  intro n
  induction n with
  | zero =>
    refine ⟨fun st X v w s _ hc _ => ?_, fun st X xs ys c _ hc hr => ?_,
      fun st X es fs ks vs _ hc hr => ?_⟩
    · cases hc
    · cases hr with
      | nil => rfl
      | cons h1 h2 => cases hc
    · cases hr with
      | nil => rfl
      | cons h1 h2 h3 => cases hc
  | succ n ih =>
    obtain ⟨ihV, ihL, ihD⟩ := ih
    refine ⟨fun st X v w s hI hc hr => ?_, fun st X xs ys c hI hc hr => ?_,
      fun st X es fs ks vs hI hc hr => ?_⟩
    · cases hr with
      | none =>
        cases s with
        | simple k no => exact hc
        | list c => cases hc
        | dict ks vs => cases hc
        | object k => cases hc
      | int i =>
        cases s with
        | simple k no => cases k <;> first | rfl | cases hc
        | list c => cases hc
        | dict ks vs => cases hc
        | object k => cases hc
      | text str =>
        cases s with
        | simple k no => cases k <;> first | rfl | cases hc
        | list c => cases hc
        | dict ks vs => cases hc
        | object k => cases hc
      | bool b =>
        cases s with
        | simple k no => cases k <;> first | rfl | cases hc
        | list c => cases hc
        | dict ks vs => cases hc
        | object k => cases hc
      | binary bs =>
        cases s with
        | simple k no => cases k <;> first | rfl | cases hc
        | list c => cases hc
        | dict ks vs => cases hc
        | object k => cases hc
      | list hl =>
        cases s with
        | simple k no => cases hc
        | list c => exact ihL st X _ _ c hI hc hl
        | dict ks vs => cases hc
        | object k => cases hc
      | dict hd =>
        cases s with
        | simple k no => cases hc
        | list c => cases hc
        | dict ks vs =>
          have hc2 : (vKeysNodup _ && confDict Dir.restore lk h n _ ks vs)
              = true := hc
          rw [Bool.and_eq_true] at hc2
          exact ihD st X _ _ ks vs hI hc2.2 hd
        | object k => cases hc
      | ref hmem =>
        cases s with
        | simple k no => cases hc
        | list c => cases hc
        | dict ks vs => cases hc
        | object k =>
          obtain ⟨t2, hw, ht, o, ho, os, hos, tob, tc, htob, htc, hcls, _⟩ :=
            hI.1 _ _ hmem
          injection hw with hEq
          rw [hEq]
          show (match st.out.lookup t2 with
            | Option.some ob => (lk.objectSchemaLookup.lookup ob.cls).isSome
            | Option.none => false) = true
          rw [htob]
          dsimp only
          rw [hcls]
          rw [tgtTagStr] at htc
          obtain ⟨os2, hos2, _⟩ := lookOK_stc hok _ _ htc
          rw [hos2]
          rfl
    · cases hr with
      | nil => rfl
      | cons h1 h2 =>
        have hc2 := hc
        rw [confList, Bool.and_eq_true] at hc2
        show (validate lk st.out _ c && validateList lk st.out _ c) = true
        rw [Bool.and_eq_true]
        exact ⟨ihV st X _ _ c hI hc2.1 h1, ihL st X _ _ c hI hc2.2 h2⟩
    · cases hr with
      | nil => rfl
      | cons h1 h2 h3 =>
        have hc2 := hc
        rw [confDict, Bool.and_eq_true, Bool.and_eq_true] at hc2
        show (validate lk st.out _ ks && validate lk st.out _ vs
          && validateDict lk st.out _ ks vs) = true
        rw [Bool.and_eq_true, Bool.and_eq_true]
        exact ⟨⟨ihV st X _ _ ks hI hc2.1.1 h1, ihV st X _ _ vs hI hc2.1.2 h2⟩,
          ihD st X _ _ ks vs hI hc2.2 h3⟩

theorem vKeysNodup_nodup : ∀ {es : List (Value × Value)},
    vKeysNodup es = true → (es.map Prod.fst).Nodup := by
  intro es
  induction es with
  | nil => intro _; exact List.nodup_nil
  | cons e es ih =>
    intro hnd
    obtain ⟨k, v⟩ := e
    rw [vKeysNodup, Bool.and_eq_true] at hnd
    rw [List.map_cons, List.nodup_cons]
    refine ⟨fun hmem => ?_, ih hnd.2⟩
    rcases List.mem_map.mp hmem with ⟨q, hq, hfst⟩
    have h2 := List.all_eq_true.mp hnd.1 q hq
    rw [Bool.not_eq_true'] at h2
    have hq1 : q.1 = k := hfst
    rw [hq1] at h2
    have h3 := (vbeq_iff k k).mpr rfl
    rw [h2] at h3
    cases h3

theorem RELdict_key_mem {st : ConvState} :
    ∀ {es0 acc : List (Value × Value)}, RELdict st es0 acc →
      ∀ k', k' ∈ acc.map Prod.fst →
        ∃ k0, k0 ∈ es0.map Prod.fst ∧ REL st k0 k'
  | _, _, RELdict.nil => fun k' hmem => absurd hmem (by simp)
  | _, _, RELdict.cons hk hv hd => fun k' hmem => by
    rw [List.map_cons] at hmem
    rcases List.mem_cons.mp hmem with hEq | hmem'
    · subst hEq
      exact ⟨_, List.mem_cons_self _ _, hk⟩
    · obtain ⟨k0, hk0, hr0⟩ := RELdict_key_mem hd k' hmem'
      exact ⟨k0, List.mem_cons_of_mem _ hk0, hr0⟩

theorem RELdict_append {st : ConvState} {k k' v v' : Value}
    (hk : REL st k k') (hv : REL st v v') :
    ∀ {es0 acc : List (Value × Value)}, RELdict st es0 acc →
      RELdict st (es0 ++ [(k, v)]) (acc ++ [(k', v')])
  | _, _, RELdict.nil => RELdict.cons hk hv RELdict.nil
  | _, _, RELdict.cons hk0 hv0 hd =>
    RELdict.cons hk0 hv0 (RELdict_append hk hv hd)

theorem dictSet_mem : ∀ {fs : List (String × Value)} {nm : String}
    {v : Value} {p : String × Value},
    p ∈ dictSet fs nm v → p ∈ fs ∨ p = (nm, v) := by
  intro fs
  induction fs with
  | nil =>
    intro nm v p hp
    rw [dictSet] at hp
    exact Or.inr (List.mem_singleton.mp hp)
  | cons f fs ih =>
    intro nm v p hp
    obtain ⟨nm', v'⟩ := f
    rw [dictSet] at hp
    by_cases hEq : nm' = nm
    · rw [if_pos hEq] at hp
      rcases List.mem_cons.mp hp with h1 | h2
      · exact Or.inr (by rw [h1, hEq])
      · exact Or.inl (List.mem_cons_of_mem _ h2)
    · rw [if_neg hEq] at hp
      rcases List.mem_cons.mp hp with h1 | h2
      · exact Or.inl (by rw [h1]; exact List.mem_cons_self _ _)
      · rcases ih h2 with h3 | h3
        · exact Or.inl (List.mem_cons_of_mem _ h3)
        · exact Or.inr h3

theorem dictSet_lookup_self : ∀ (fs : List (String × Value)) (nm : String)
    (v : Value), (dictSet fs nm v).lookup nm = Option.some v := by
  intro fs
  induction fs with
  | nil => intro nm v; exact lookup_cons_self
  | cons f fs ih =>
    intro nm v
    obtain ⟨nm', v'⟩ := f
    rw [dictSet]
    by_cases hEq : nm' = nm
    · rw [if_pos hEq, hEq]
      exact lookup_cons_self
    · rw [if_neg hEq]
      rw [lookup_cons_ne (fun hn => hEq hn.symm)]
      exact ih nm v

theorem dictSet_lookup_ne : ∀ (fs : List (String × Value)) (nm nm' : String)
    (v : Value), nm' ≠ nm →
      (dictSet fs nm v).lookup nm' = fs.lookup nm' := by
  intro fs
  induction fs with
  | nil =>
    intro nm nm' v hne
    rw [dictSet, lookup_cons_ne hne]
  | cons f fs ih =>
    intro nm nm' v hne
    obtain ⟨nm0, v0⟩ := f
    rw [dictSet]
    by_cases hEq : nm0 = nm
    · rw [if_pos hEq]
      subst hEq
      rw [lookup_cons_ne hne, lookup_cons_ne hne]
    · rw [if_neg hEq]
      by_cases hEq2 : nm' = nm0
      · subst hEq2
        rw [lookup_cons_self, lookup_cons_self]
      · rw [lookup_cons_ne hEq2, lookup_cons_ne hEq2]
        exact ih nm nm' v hne

theorem tgtTagStr_of_src {dir : Dir} {lk : Lookups} (hok : lookOK lk = true)
    {c : String} {os : ObjectSchema}
    (hs : srcSchema dir lk c = Option.some os) :
    ∃ tc, tgtTagStr dir lk os.classString = Option.some tc := by
  cases dir with
  | save => exact ⟨os.classString, rfl⟩
  | restore =>
    rw [srcSchema] at hs
    cases hstc : lk.stringsToClasses.lookup c with
    | none => rw [hstc] at hs; cases hs
    | some k =>
      rw [hstc] at hs
      dsimp only at hs
      obtain ⟨os2, hos2, hcs2⟩ := lookOK_stc hok _ _ hstc
      rw [hs] at hos2
      cases hos2
      rw [tgtTagStr, hcs2, hstc]
      exact ⟨k, rfl⟩

theorem getSourceAttr_ok {dir : Dir} {h : Heap} {a : Addr} {o : Obj}
    {nm : String} {d : Value} (ho : h.lookup a = Option.some o)
    (hd : o.fields.lookup nm = Option.some d) :
    getSourceAttr dir h a nm = Except.ok d := by
  unfold getSourceAttr
  rw [ho]
  dsimp only
  rw [hd]

theorem getObjectSchema_eq {dir : Dir} {lk : Lookups} {h : Heap} {a : Addr}
    {o : Obj} {os : ObjectSchema} (ho : h.lookup a = Option.some o)
    (hos : srcSchema dir lk o.cls = Option.some os) :
    getObjectSchema dir lk h a = Except.ok os := by
  cases dir with
  | save =>
    rw [srcSchema] at hos
    rw [getObjectSchema, ho]
    dsimp only
    rw [hos]
  | restore =>
    rw [srcSchema] at hos
    rw [getObjectSchema, ho]
    dsimp only
    cases hstc : lk.stringsToClasses.lookup o.cls with
    | none => rw [hstc] at hos; cases hos
    | some k =>
      rw [hstc] at hos
      dsimp only at hos
      dsimp only
      rw [hos]

/-- The main conversion induction: with mutually consistent lookup tables
and a strictly decreasing rank along heap references, every input value
conforming at fuel `n` converts successfully at fuel `n`, the conversion
state only grows, the invariant (parameterized by the in-progress set `X`)
is preserved, and the result is `REL`-related to the input.  The five
conjuncts follow the converter's five mutually recursive functions; the
field-loop conjunct additionally tracks exactly how the target object
under construction evolves. -/
theorem convert_main {dir : Dir} {lk : Lookups} {h : Heap}
    {rank : Addr → Nat} (hok : lookOK lk = true)
    (hrank : ∀ a o, h.lookup a = Option.some o →
      ∀ b ∈ refsOfFields o.fields, rank b < rank a) :
    ∀ n : Nat,
    (∀ (st : ConvState) (X : List Addr) (v : Value) (s : SchemaItem)
        (path : String),
      INV dir lk h st X →
      (∀ b ∈ X, ∀ c ∈ refsOf v, rank c < rank b) →
      confV dir lk h n v s = true →
      ∃ w st', convertData dir lk h n st v s path = Except.ok (w, st')
        ∧ INV dir lk h st' X ∧ Extends st st' ∧ REL st' v w)
    ∧ (∀ (st : ConvState) (X : List Addr) (xs : List Value) (c : SchemaItem)
        (path : String) (i : Nat),
      INV dir lk h st X →
      (∀ b ∈ X, ∀ c' ∈ refsOfList xs, rank c' < rank b) →
      confList dir lk h n xs c = true →
      ∃ ws st', convertList dir lk h n st xs c path i = Except.ok (ws, st')
        ∧ INV dir lk h st' X ∧ Extends st st' ∧ RELlist st' xs ws)
    ∧ (∀ (st : ConvState) (X : List Addr) (es es0 acc : List (Value × Value))
        (ks vs : SchemaItem) (path : String),
      INV dir lk h st X →
      (∀ b ∈ X, ∀ c' ∈ refsOfDict es, rank c' < rank b) →
      confDict dir lk h n es ks vs = true →
      RELdict st es0 acc →
      ((es0 ++ es).map Prod.fst).Nodup →
      ∃ nes st', convertDict dir lk h n st es ks vs path acc
          = Except.ok (nes, st')
        ∧ INV dir lk h st' X ∧ Extends st st'
        ∧ RELdict st' (es0 ++ es) nes)
    ∧ (∀ (st : ConvState) (X : List Addr) (a : Addr) (s : SchemaItem)
        (path : String),
      INV dir lk h st X →
      (∀ b ∈ X, rank a < rank b) →
      confObj dir lk h n a = true →
      ∃ w st', convertObject dir lk h n st (Value.ref a) s path
          = Except.ok (w, st')
        ∧ INV dir lk h st' X ∧ Extends st st' ∧ REL st' (Value.ref a) w)
    ∧ (∀ (st : ConvState) (X : List Addr) (t a : Addr) (o : Obj)
        (flds : List (String × SchemaItem)) (path : String),
      INV dir lk h st (a :: X) →
      h.lookup a = Option.some o →
      (∀ b ∈ a :: X, ∀ c ∈ refsOfFields o.fields, rank c < rank b) →
      confFields dir lk h n o.fields flds = true →
      st.memo.lookup a = Option.some (Value.ref t) →
      t < st.ctr →
      ∃ st', convertFields dir lk h n st t a flds path
          = Except.ok (Value.ref t, st')
        ∧ INV dir lk h st' (a :: X) ∧ ExtendsAt t st st'
        ∧ ∀ tobIn, st.out.lookup t = Option.some tobIn →
          ∃ tob', st'.out.lookup t = Option.some tob'
            ∧ tob'.cls = tobIn.cls
            ∧ (∀ nm fs, (nm, fs) ∈ flds →
                ∃ d w', o.fields.lookup nm = Option.some d
                  ∧ tob'.fields.lookup nm = Option.some w' ∧ REL st' d w')
            ∧ (∀ p ∈ tob'.fields, p ∈ tobIn.fields
                ∨ ∃ d, o.fields.lookup p.1 = Option.some d ∧ REL st' d p.2)
            ∧ (∀ nm', nm' ∉ flds.map Prod.fst →
                tob'.fields.lookup nm' = tobIn.fields.lookup nm')) := by
  intro n
  induction n with
  | zero =>
    refine ⟨fun st X v s path hI hX hc => ?_,
      fun st X xs c path i hI hX hc => ?_,
      fun st X es es0 acc ks vs path hI hX hc hreld hnd => ?_,
      fun st X a s path hI hX hc => ?_,
      fun st X t a o flds path hI ho hXf hc hat ht => ?_⟩
    · rw [confV] at hc; cases hc
    · cases xs with
      | nil =>
        exact ⟨[], st, convertList_nil dir lk h 0 st c path i, hI,
          extends_refl st, RELlist.nil⟩
      | cons x xs => rw [confList] at hc; cases hc
    · cases es with
      | nil =>
        refine ⟨acc, st, convertDict_nil dir lk h 0 st ks vs path acc, hI,
          extends_refl st, ?_⟩
        rw [List.append_nil]
        exact hreld
      | cons e es =>
        obtain ⟨k, v⟩ := e
        rw [confDict] at hc; cases hc
    · rw [confObj] at hc
      cases ho : h.lookup a with
      | none => rw [ho] at hc; cases hc
      | some o =>
        rw [ho] at hc
        dsimp only at hc
        cases hos : srcSchema dir lk o.cls with
        | none => rw [hos] at hc; cases hc
        | some os =>
          rw [hos] at hc
          dsimp only at hc
          cases hc
    · cases flds with
      | nil =>
        refine ⟨st, convertFields_nil dir lk h 0 st t a path, hI,
          extendsAt_of_extends (extends_refl st), fun tobIn htobIn => ?_⟩
        exact ⟨tobIn, htobIn, rfl,
          fun nm fs hmem => absurd hmem (List.not_mem_nil _),
          fun p hp => Or.inl hp, fun nm' _ => rfl⟩
      | cons f rest =>
        obtain ⟨name, fs⟩ := f
        rw [confFields] at hc
        cases hc
  | succ n ih =>
    obtain ⟨ihV, ihL, ihD, ihO, ihF⟩ := ih
    refine ⟨fun st X v s path hI hX hc => ?_,
      fun st X xs c path i hI hX hc => ?_,
      fun st X es es0 acc ks vs path hI hX hc hreld hnd => ?_,
      fun st X a s path hI hX hc => ?_,
      fun st X t a o flds path hI ho hXf hc hat ht => ?_⟩
    · -- convertData
      have hpre : preValidate dir lk h v s = true := by
        cases dir with
        | save => exact (conf_validate (n + 1)).1 v s hc
        | restore => rfl
      cases v with
      | none =>
        cases s with
        | simple k no =>
          have hpost : postValidate dir lk st.out Value.none
              (SchemaItem.simple k no) = true := by
            cases dir with
            | save => rfl
            | restore =>
              exact (vtrans hok (n + 1)).1 st X Value.none Value.none _
                hI hc REL.none
          refine ⟨Value.none, st, ?_, hI, extends_refl st, REL.none⟩
          rw [convertData_succ, if_pos hpre]
          dsimp only
          rw [if_pos hpost]
        | list c => cases hc
        | dict ks vs => cases hc
        | object k => cases hc
      | int i =>
        cases s with
        | simple k no =>
          cases k with
          | int =>
            have hpost : postValidate dir lk st.out (Value.int i)
                (SchemaItem.simple ScalarKind.int no) = true := by
              cases dir with
              | save => rfl
              | restore =>
                exact (vtrans hok (n + 1)).1 st X (Value.int i) (Value.int i) _
                  hI hc (REL.int i)
            refine ⟨Value.int i, st, ?_, hI, extends_refl st, REL.int i⟩
            rw [convertData_succ, if_pos hpre]
            dsimp only
            rw [if_pos hpost]
          | text => cases hc
          | bool => cases hc
          | binary => cases hc
        | list c => cases hc
        | dict ks vs => cases hc
        | object k => cases hc
      | text str =>
        cases s with
        | simple k no =>
          cases k with
          | text =>
            have hpost : postValidate dir lk st.out (Value.text str)
                (SchemaItem.simple ScalarKind.text no) = true := by
              cases dir with
              | save => rfl
              | restore =>
                exact (vtrans hok (n + 1)).1 st X (Value.text str)
                  (Value.text str) _ hI hc (REL.text str)
            refine ⟨Value.text str, st, ?_, hI, extends_refl st, REL.text str⟩
            rw [convertData_succ, if_pos hpre]
            dsimp only
            rw [if_pos hpost]
          | int => cases hc
          | bool => cases hc
          | binary => cases hc
        | list c => cases hc
        | dict ks vs => cases hc
        | object k => cases hc
      | bool b =>
        cases s with
        | simple k no =>
          cases k with
          | bool =>
            have hpost : postValidate dir lk st.out (Value.bool b)
                (SchemaItem.simple ScalarKind.bool no) = true := by
              cases dir with
              | save => rfl
              | restore =>
                exact (vtrans hok (n + 1)).1 st X (Value.bool b) (Value.bool b)
                  _ hI hc (REL.bool b)
            refine ⟨Value.bool b, st, ?_, hI, extends_refl st, REL.bool b⟩
            rw [convertData_succ, if_pos hpre]
            dsimp only
            rw [if_pos hpost]
          | int => cases hc
          | text => cases hc
          | binary => cases hc
        | list c => cases hc
        | dict ks vs => cases hc
        | object k => cases hc
      | binary bs =>
        cases s with
        | simple k no =>
          cases k with
          | binary =>
            have hpost : postValidate dir lk st.out (Value.binary bs)
                (SchemaItem.simple ScalarKind.binary no) = true := by
              cases dir with
              | save => rfl
              | restore =>
                exact (vtrans hok (n + 1)).1 st X (Value.binary bs)
                  (Value.binary bs) _ hI hc (REL.binary bs)
            refine ⟨Value.binary bs, st, ?_, hI, extends_refl st,
              REL.binary bs⟩
            rw [convertData_succ, if_pos hpre]
            dsimp only
            rw [if_pos hpost]
          | int => cases hc
          | text => cases hc
          | bool => cases hc
        | list c => cases hc
        | dict ks vs => cases hc
        | object k => cases hc
      | list xs =>
        cases s with
        | simple k no => cases hc
        | dict ks vs => cases hc
        | object k => cases hc
        | list c =>
          have hc2 : confList dir lk h n xs c = true := hc
          have hX2 : ∀ b ∈ X, ∀ c' ∈ refsOfList xs, rank c' < rank b :=
            fun b hb c' hc' => hX b hb c' hc'
          obtain ⟨ws, st1, hls, hI1, hext1, hrelL⟩ :=
            ihL st X xs c path 0 hI hX2 hc2
          have hpost : postValidate dir lk st1.out (Value.list ws)
              (SchemaItem.list c) = true := by
            cases dir with
            | save => rfl
            | restore =>
              exact (vtrans hok (n + 1)).1 st1 X (Value.list xs)
                (Value.list ws) _ hI1 hc (REL.list hrelL)
          refine ⟨Value.list ws, st1, ?_, hI1, hext1, REL.list hrelL⟩
          rw [convertData_succ, if_pos hpre]
          dsimp only
          rw [hls]
          dsimp only
          rw [if_pos hpost]
      | dict es =>
        cases s with
        | simple k no => cases hc
        | list c => cases hc
        | object k => cases hc
        | dict ks vs =>
          have hc2 : (vKeysNodup es && confDict dir lk h n es ks vs)
              = true := hc
          rw [Bool.and_eq_true] at hc2
          have hnd : (([] ++ es).map Prod.fst).Nodup := by
            rw [List.nil_append]
            exact vKeysNodup_nodup hc2.1
          have hX2 : ∀ b ∈ X, ∀ c' ∈ refsOfDict es, rank c' < rank b :=
            fun b hb c' hc' => hX b hb c' hc'
          obtain ⟨nes, st1, hds, hI1, hext1, hrelD⟩ :=
            ihD st X es [] [] ks vs path hI hX2 hc2.2 RELdict.nil hnd
          have hrelD2 : RELdict st1 es nes := by
            have h2 := hrelD
            rw [List.nil_append] at h2
            exact h2
          have hpost : postValidate dir lk st1.out (Value.dict nes)
              (SchemaItem.dict ks vs) = true := by
            cases dir with
            | save => rfl
            | restore =>
              exact (vtrans hok (n + 1)).1 st1 X (Value.dict es)
                (Value.dict nes) _ hI1 hc (REL.dict hrelD2)
          refine ⟨Value.dict nes, st1, ?_, hI1, hext1, REL.dict hrelD2⟩
          rw [convertData_succ, if_pos hpre]
          dsimp only
          rw [hds]
          dsimp only
          rw [if_pos hpost]
      | ref a =>
        cases s with
        | simple k no => cases hc
        | list c => cases hc
        | dict ks vs => cases hc
        | object k =>
          have hc2 : confObj dir lk h n a = true := hc
          have hX2 : ∀ b ∈ X, rank a < rank b :=
            fun b hb => hX b hb a (List.mem_singleton.mpr rfl)
          obtain ⟨w, st1, hobj, hI1, hext1, hrel1⟩ :=
            ihO st X a (SchemaItem.object k) path hI hX2 hc2
          have hpost : postValidate dir lk st1.out w (SchemaItem.object k)
              = true := by
            cases dir with
            | save => rfl
            | restore =>
              exact (vtrans hok (n + 1)).1 st1 X (Value.ref a) w _ hI1 hc hrel1
          refine ⟨w, st1, ?_, hI1, hext1, hrel1⟩
          rw [convertData_succ, if_pos hpre]
          dsimp only
          rw [hobj]
          dsimp only
          rw [if_pos hpost]
    · -- convertList
      cases xs with
      | nil =>
        exact ⟨[], st, convertList_nil dir lk h (n + 1) st c path i, hI,
          extends_refl st, RELlist.nil⟩
      | cons x xs =>
        rw [confList, Bool.and_eq_true] at hc
        have hXx : ∀ b ∈ X, ∀ c' ∈ refsOf x, rank c' < rank b :=
          fun b hb c' hc' => hX b hb c' (List.mem_append.mpr (Or.inl hc'))
        have hXxs : ∀ b ∈ X, ∀ c' ∈ refsOfList xs, rank c' < rank b :=
          fun b hb c' hc' => hX b hb c' (List.mem_append.mpr (Or.inr hc'))
        obtain ⟨w, st1, hd1, hI1, hext1, hr1⟩ :=
          ihV st X x c (path ++ "\n[" ++ toString i ++ "] -> " ++ render x)
            hI hXx hc.1
        obtain ⟨ws, st2, hd2, hI2, hext2, hr2⟩ :=
          ihL st1 X xs c path (i + 1) hI1 hXxs hc.2
        refine ⟨w :: ws, st2, ?_, hI2, extends_trans hext1 hext2,
          RELlist.cons (REL_mono hext2.2.1 hr1) hr2⟩
        rw [convertList_cons, hd1]
        dsimp only
        rw [hd2]
    · -- convertDict
      cases es with
      | nil =>
        refine ⟨acc, st, convertDict_nil dir lk h (n + 1) st ks vs path acc,
          hI, extends_refl st, ?_⟩
        rw [List.append_nil]
        exact hreld
      | cons e es =>
        obtain ⟨k, v⟩ := e
        rw [confDict, Bool.and_eq_true, Bool.and_eq_true] at hc
        have hXk : ∀ b ∈ X, ∀ c' ∈ refsOf k, rank c' < rank b :=
          fun b hb c' hc' => hX b hb c'
            (List.mem_append.mpr (Or.inl (List.mem_append.mpr (Or.inl hc'))))
        have hXv : ∀ b ∈ X, ∀ c' ∈ refsOf v, rank c' < rank b :=
          fun b hb c' hc' => hX b hb c'
            (List.mem_append.mpr (Or.inl (List.mem_append.mpr (Or.inr hc'))))
        have hXes : ∀ b ∈ X, ∀ c' ∈ refsOfDict es, rank c' < rank b :=
          fun b hb c' hc' => hX b hb c' (List.mem_append.mpr (Or.inr hc'))
        obtain ⟨k', st1, hk1, hI1, hext1, hrk⟩ :=
          ihV st X k ks (path ++ "\nkey: " ++ render k) hI hXk hc.1.1
        obtain ⟨v', st2, hv2, hI2, hext2, hrv⟩ :=
          ihV st1 X v vs
            (path ++ "\n\x7b" ++ render k ++ "\x7d -> " ++ render v)
            hI1 hXv hc.1.2
        have hrk2 : REL st2 k k' := REL_mono hext2.2.1 hrk
        have hreld2 : RELdict st2 es0 acc :=
          RELdict_mono (extends_trans hext1 hext2).2.1 hreld
        have hk'n : k' ∉ acc.map Prod.fst := by
          intro hmem
          obtain ⟨k0, hk0mem, hr0⟩ := RELdict_key_mem hreld2 k' hmem
          have hEq : k0 = k := REL_inj hI2.2.1 hr0 hrk2
          subst hEq
          rw [List.map_append] at hnd
          have hdisj := (List.nodup_append.mp hnd).2.2
          exact hdisj hk0mem
            (by rw [List.map_cons]; exact List.mem_cons_self _ _)
        have hset : vdictSet acc k' v' = acc ++ [(k', v')] :=
          vdictSet_append acc k' v' hk'n
        have hreld3 : RELdict st2 (es0 ++ [(k, v)]) (acc ++ [(k', v')]) :=
          RELdict_append hrk2 hrv hreld2
        have hnd2 : (((es0 ++ [(k, v)]) ++ es).map Prod.fst).Nodup := by
          rw [← List.append_cons]
          exact hnd
        obtain ⟨nes, st3, hd3, hI3, hext3, hrd3⟩ :=
          ihD st2 X es (es0 ++ [(k, v)]) (acc ++ [(k', v')]) ks vs path
            hI2 hXes hc.2 hreld3 hnd2
        refine ⟨nes, st3, ?_,
          hI3, extends_trans hext1 (extends_trans hext2 hext3), ?_⟩
        · rw [convertDict_cons, hk1]
          dsimp only
          rw [hv2]
          dsimp only
          rw [hset]
          exact hd3
        · rw [List.append_cons]
          exact hrd3
    · -- convertObject
      rw [convertObject_ref]
      cases hm : st.memo.lookup a with
      | some w =>
        obtain ⟨t, hw, _⟩ := hI.1 a w hm
        refine ⟨w, st, rfl, hI, extends_refl st, ?_⟩
        rw [hw]
        exact REL.ref (hw ▸ hm)
      | none =>
        rw [confObj] at hc
        cases ho : h.lookup a with
        | none => rw [ho] at hc; cases hc
        | some o =>
          rw [ho] at hc
          dsimp only at hc
          cases hos : srcSchema dir lk o.cls with
          | none => rw [hos] at hc; cases hc
          | some os =>
            rw [hos] at hc
            dsimp only at hc
            obtain ⟨tc, htc⟩ := tgtTagStr_of_src hok hos
            have haX : a ∉ X := fun hmem =>
              Nat.lt_irrefl _ (hX a hmem)
            have hI2 : INV dir lk h
                { memo := (a, Value.ref st.ctr) :: st.memo,
                  out := (st.ctr, { cls := tc, fields := [] }) :: st.out,
                  ctr := st.ctr + 1 } (a :: X) :=
              INV_alloc hI hm ho hos htc
            have hXf : ∀ b ∈ a :: X, ∀ c ∈ refsOfFields o.fields,
                rank c < rank b := by
              intro b hb c hcm
              rcases List.mem_cons.mp hb with hEq | hbX
              · rw [hEq]
                exact hrank a o ho c hcm
              · exact Nat.lt_trans (hrank a o ho c hcm) (hX b hbX)
            obtain ⟨st3, hcf, hI3, hext3, hfin⟩ :=
              ihF { memo := (a, Value.ref st.ctr) :: st.memo,
                    out := (st.ctr, { cls := tc, fields := [] }) :: st.out,
                    ctr := st.ctr + 1 } X st.ctr a o os.fields path
                hI2 ho hXf hc lookup_cons_self (Nat.lt_succ_self st.ctr)
            have hat3 : st3.memo.lookup a = Option.some (Value.ref st.ctr) :=
              hext3.2.1 a _ lookup_cons_self
            obtain ⟨tob', htob', hcls', hfwd, hbwd, _⟩ :=
              hfin { cls := tc, fields := [] } lookup_cons_self
            obtain ⟨e1, e2, e3, e4, e5⟩ := hI3
            have hIX : INV dir lk h st3 X := by
              refine ⟨?_, e2, e3, e4, e5⟩
              intro b wb hwb
              by_cases hba : b = a
              · have hat3b : st3.memo.lookup a
                    = Option.some (Value.ref st.ctr) :=
                  hext3.2.1 a _ lookup_cons_self
                rw [hba] at hwb
                rw [hwb] at hat3b
                injection hat3b with hwEq
                rw [hba, hwEq]
                refine ⟨st.ctr, rfl,
                  Nat.lt_of_lt_of_le (Nat.lt_succ_self st.ctr) hext3.1,
                  o, ho, os, hos, tob', tc, htob', htc, hcls', fun _ => ?_⟩
                refine ⟨hfwd, fun p hp => ?_⟩
                rcases hbwd p hp with h1 | h2
                · exact absurd h1 (List.not_mem_nil p)
                · exact h2
              · obtain ⟨t', hw', ht', o2, ho2, os2, hos2, tob2, tc2, htob2,
                  htc2, hcls2, hcomp2⟩ := e1 b wb hwb
                exact ⟨t', hw', ht', o2, ho2, os2, hos2, tob2, tc2, htob2,
                  htc2, hcls2, fun hbX => hcomp2 (fun hmem =>
                    (List.mem_cons.mp hmem).elim (fun hEq => hba hEq)
                      (fun h' => hbX h'))⟩
            refine ⟨Value.ref st.ctr, st3, ?_, hIX, ?_, REL.ref hat3⟩
            · dsimp only
              rw [getObjectSchema_eq ho hos]
              dsimp only
              rw [makeNewConvert_ok st htc]
              dsimp only
              exact hcf
            · refine ⟨Nat.le_trans (Nat.le_succ st.ctr) hext3.1, ?_, ?_⟩
              · intro a0 w0 h0
                have hne : a0 ≠ a := by
                  intro hEq
                  rw [hEq, hm] at h0
                  cases h0
                refine hext3.2.1 a0 w0 ?_
                show ((a, Value.ref st.ctr) :: st.memo).lookup a0
                  = Option.some w0
                rw [lookup_cons_ne hne]
                exact h0
              · intro u hu
                have hune : u ≠ st.ctr := Nat.ne_of_lt hu
                have hstep := hext3.2.2 u (Nat.lt_succ_of_lt hu) hune
                rw [hstep]
                show ((st.ctr, ({ cls := tc, fields := [] } : Obj))
                    :: st.out).lookup u = st.out.lookup u
                rw [lookup_cons_ne hune]
    · -- convertFields
      cases flds with
      | nil =>
        refine ⟨st, convertFields_nil dir lk h (n + 1) st t a path, hI,
          extendsAt_of_extends (extends_refl st), fun tobIn htobIn => ?_⟩
        exact ⟨tobIn, htobIn, rfl,
          fun nm fs hmem => absurd hmem (List.not_mem_nil _),
          fun p hp => Or.inl hp, fun nm' _ => rfl⟩
      | cons f rest =>
        obtain ⟨name, fs⟩ := f
        rw [confFields] at hc
        cases hd : o.fields.lookup name with
        | none => rw [hd] at hc; cases hc
        | some d =>
          rw [hd] at hc
          dsimp only at hc
          rw [Bool.and_eq_true] at hc
          have hXd : ∀ b ∈ a :: X, ∀ c ∈ refsOf d, rank c < rank b :=
            fun b hb c hcm => hXf b hb c (refsOf_lookup_subset hd c hcm)
          obtain ⟨w1, st1, hcd1, hI1, hext1, hrel1⟩ :=
            ihV st (a :: X) d fs
              (path ++ "\n" ++ name ++ " -> " ++ render d) hI hXd hc.1
          have hat1 : st1.memo.lookup a = Option.some (Value.ref t) :=
            hext1.2.1 a _ hat
          have hIA : INV dir lk h (setTargetAttr st1 t name w1) (a :: X) :=
            INV_setTargetAttr name w1 hI1 hat1 (List.mem_cons_self a X)
          have hatA : (setTargetAttr st1 t name w1).memo.lookup a
              = Option.some (Value.ref t) := by
            rw [setTargetAttr_memo]
            exact hat1
          have htA : t < (setTargetAttr st1 t name w1).ctr := by
            rw [setTargetAttr_ctr]
            exact Nat.lt_of_lt_of_le ht hext1.1
          obtain ⟨st', hcf, hI', hext', hfin⟩ :=
            ihF (setTargetAttr st1 t name w1) X t a o rest path
              hIA ho hXf hc.2 hatA htA
          have hmem' : ∀ a0 w0, st1.memo.lookup a0 = Option.some w0 →
              st'.memo.lookup a0 = Option.some w0 := by
            intro a0 w0 h0
            refine hext'.2.1 a0 w0 ?_
            rw [setTargetAttr_memo]
            exact h0
          have hrelP : REL st' d w1 := REL_mono hmem' hrel1
          refine ⟨st', ?_,
            hI',
            extends_extendsAt_trans hext1
              (extendsAt_trans (setTargetAttr_extendsAt st1 t name w1) hext'),
            fun tobIn htobIn => ?_⟩
          · rw [convertFields_cons, getSourceAttr_ok ho hd]
            dsimp only
            rw [hcd1]
            dsimp only
            exact hcf
          · have htob1 : st1.out.lookup t = Option.some tobIn := by
              rw [hext1.2.2 t ht]
              exact htobIn
            have htobA : (setTargetAttr st1 t name w1).out.lookup t
                = Option.some
                    { tobIn with fields := dictSet tobIn.fields name w1 } :=
              setTargetAttr_lookup htob1 name w1
            obtain ⟨tob', htob', hcls', hfwd', hbwd', hnp'⟩ :=
              hfin { tobIn with fields := dictSet tobIn.fields name w1 } htobA
            refine ⟨tob', htob', hcls', ?_, ?_, ?_⟩
            · intro nm fs0 hmem
              rcases List.mem_cons.mp hmem with hEq | hmemR
              · rw [Prod.mk.injEq] at hEq
                obtain ⟨hnm, _⟩ := hEq
                rw [hnm]
                by_cases hin : name ∈ rest.map Prod.fst
                · obtain ⟨p, hp, hfst⟩ := List.mem_map.mp hin
                  obtain ⟨nm2, fs2⟩ := p
                  have hnm2 : nm2 = name := hfst
                  rw [← hnm2]
                  exact hfwd' nm2 fs2 hp
                · have hlook : tob'.fields.lookup name = Option.some w1 := by
                    rw [hnp' name hin]
                    exact dictSet_lookup_self tobIn.fields name w1
                  exact ⟨d, w1, hd, hlook, hrelP⟩
              · exact hfwd' nm fs0 hmemR
            · intro p hp
              rcases hbwd' p hp with h1 | h2
              · rcases dictSet_mem h1 with h3 | h3
                · exact Or.inl h3
                · subst h3
                  exact Or.inr ⟨d, hd, hrelP⟩
              · exact Or.inr h2
            · intro nm' hnm'
              rw [List.map_cons, List.mem_cons] at hnm'
              push_neg at hnm'
              rw [hnp' nm' hnm'.2]
              exact dictSet_lookup_ne tobIn.fields name nm' w1 hnm'.1

/-- The opposite conversion direction. -/
def dirFlip : Dir → Dir
  | Dir.save => Dir.restore
  | Dir.restore => Dir.save

theorem rankOKb_spec {h : Heap} {rank : Addr → Nat}
    (hr : rankOKb h rank = true) :
    ∀ a o, h.lookup a = Option.some o →
      ∀ b ∈ refsOfFields o.fields, rank b < rank a := by
  intro a o ha b hb
  have hmem := lookup_mem ha
  have hp := List.all_eq_true.mp hr (a, o) hmem
  dsimp only at hp
  rw [ha] at hp
  dsimp only at hp
  have hb2 := List.all_eq_true.mp hp b hb
  rw [Bool.and_eq_true] at hb2
  exact of_decide_eq_true hb2.2

theorem refsOfFields_mem : ∀ {flds : List (String × Value)} {u : Addr},
    u ∈ refsOfFields flds → ∃ p ∈ flds, u ∈ refsOf p.2 := by
  intro flds
  induction flds with
  | nil => intro u hu; cases hu
  | cons p flds ih =>
    intro u hu
    obtain ⟨nm, v⟩ := p
    rw [refsOfFields] at hu
    rcases List.mem_append.mp hu with h1 | h2
    · exact ⟨(nm, v), List.mem_cons_self _ _, h1⟩
    · obtain ⟨q, hq, hq2⟩ := ih h2
      exact ⟨q, List.mem_cons_of_mem _ hq, hq2⟩

mutual

theorem refsREL {st : ConvState} :
    ∀ {v w : Value}, REL st v w → ∀ u ∈ refsOf w,
      ∃ c, c ∈ refsOf v ∧ st.memo.lookup c = Option.some (Value.ref u)
  | _, _, REL.none => fun u hu => absurd hu (List.not_mem_nil u)
  | _, _, REL.int _ => fun u hu => absurd hu (List.not_mem_nil u)
  | _, _, REL.text _ => fun u hu => absurd hu (List.not_mem_nil u)
  | _, _, REL.bool _ => fun u hu => absurd hu (List.not_mem_nil u)
  | _, _, REL.binary _ => fun u hu => absurd hu (List.not_mem_nil u)
  | _, _, REL.list hl => fun u hu => refsRELlist hl u hu
  | _, _, REL.dict hd => fun u hu => refsRELdict hd u hu
  | _, _, REL.ref hr => fun u hu => by
    have hu2 := List.mem_singleton.mp hu
    subst hu2
    exact ⟨_, List.mem_singleton.mpr rfl, hr⟩

theorem refsRELlist {st : ConvState} :
    ∀ {xs ys : List Value}, RELlist st xs ys → ∀ u ∈ refsOfList ys,
      ∃ c, c ∈ refsOfList xs ∧ st.memo.lookup c = Option.some (Value.ref u)
  | _, _, RELlist.nil => fun u hu => absurd hu (List.not_mem_nil u)
  | _, _, RELlist.cons h hl => fun u hu => by
    rcases List.mem_append.mp hu with h1 | h2
    · obtain ⟨c, hc, hm⟩ := refsREL h u h1
      exact ⟨c, List.mem_append.mpr (Or.inl hc), hm⟩
    · obtain ⟨c, hc, hm⟩ := refsRELlist hl u h2
      exact ⟨c, List.mem_append.mpr (Or.inr hc), hm⟩

theorem refsRELdict {st : ConvState} :
    ∀ {es fs : List (Value × Value)}, RELdict st es fs →
      ∀ u ∈ refsOfDict fs,
      ∃ c, c ∈ refsOfDict es ∧ st.memo.lookup c = Option.some (Value.ref u)
  | _, _, RELdict.nil => fun u hu => absurd hu (List.not_mem_nil u)
  | _, _, RELdict.cons hk hv hd => fun u hu => by
    rcases List.mem_append.mp hu with h1 | h2
    · rcases List.mem_append.mp h1 with h3 | h4
      · obtain ⟨c, hc, hm⟩ := refsREL hk u h3
        exact ⟨c, List.mem_append.mpr
          (Or.inl (List.mem_append.mpr (Or.inl hc))), hm⟩
      · obtain ⟨c, hc, hm⟩ := refsREL hv u h4
        exact ⟨c, List.mem_append.mpr
          (Or.inl (List.mem_append.mpr (Or.inr hc))), hm⟩
    · obtain ⟨c, hc, hm⟩ := refsRELdict hd u h2
      exact ⟨c, List.mem_append.mpr (Or.inr hc), hm⟩

end

/-- The schema an entry resolves to is the same on both sides of the
conversion: the target's class tag resolves, in the opposite direction, to
the very same `ObjectSchema`. -/
theorem srcSchema_flip {dir : Dir} {lk : Lookups} (hok : lookOK lk = true)
    {c : String} {os : ObjectSchema} {tc : String}
    (hos : srcSchema dir lk c = Option.some os)
    (htc : tgtTagStr dir lk os.classString = Option.some tc) :
    srcSchema (dirFlip dir) lk tc = Option.some os := by
  cases dir with
  | save =>
    rw [tgtTagStr] at htc
    injection htc with htcEq
    rw [srcSchema] at hos
    have hosl := lookOK_osl hok c os hos
    show srcSchema Dir.restore lk tc = Option.some os
    rw [srcSchema, ← htcEq, hosl.2.1]
    exact hos
  | restore =>
    rw [srcSchema] at hos
    cases hstc : lk.stringsToClasses.lookup c with
    | none => rw [hstc] at hos; cases hos
    | some k =>
      rw [hstc] at hos
      dsimp only at hos
      obtain ⟨os2, hos2, hcs2⟩ := lookOK_stc hok c k hstc
      rw [hos] at hos2
      injection hos2 with hosEq
      rw [tgtTagStr] at htc
      rw [hosEq, hcs2, hstc] at htc
      injection htc with htcEq
      show srcSchema Dir.save lk tc = Option.some os
      rw [srcSchema, ← htcEq]
      exact hos

theorem resolveT_eq {dir : Dir} {lk : Lookups} {tag : String}
    {os : ObjectSchema} (hs : srcSchema dir lk tag = Option.some os) :
    resolveT dir lk tag
      = Option.some (os.classString, os.fields.map Prod.fst) := by
  rw [resolveT, hs]

theorem vKeysNodup_trans {st : ConvState} (hinj : MemoInj st) :
    ∀ {es fs : List (Value × Value)}, RELdict st es fs →
      vKeysNodup es = true → vKeysNodup fs = true
  | _, _, RELdict.nil => fun _ => rfl
  | _, _, @RELdict.cons _ k k' v v' es fs hk hv hd => fun hnd => by
    rw [vKeysNodup, Bool.and_eq_true] at hnd
    rw [vKeysNodup, Bool.and_eq_true]
    refine ⟨?_, vKeysNodup_trans hinj hd hnd.2⟩
    rw [List.all_eq_true]
    intro q' hq'
    rw [Bool.not_eq_true']
    cases hb : vbeq k' q'.1 with
    | false => rfl
    | true =>
      exfalso
      have hq'1 := (vbeq_iff k' q'.1).mp hb
      have hmem : q'.1 ∈ fs.map Prod.fst :=
        List.mem_map.mpr ⟨q', hq', rfl⟩
      rw [← hq'1] at hmem
      obtain ⟨k0, hk0, hr0⟩ := RELdict_key_mem hd k' hmem
      have hEq := REL_inj hinj hr0 hk
      obtain ⟨q0, hq0, hq0f⟩ := List.mem_map.mp hk0
      have h2 := List.all_eq_true.mp hnd.1 q0 hq0
      rw [Bool.not_eq_true'] at h2
      rw [hq0f, hEq] at h2
      have h3 := (vbeq_iff k k).mpr rfl
      rw [h2] at h3
      cases h3

/-- Conformance transfer: under the completed invariant, the converted
image of a conforming value conforms, in the opposite direction, against
the produced target heap, at the same fuel. -/
theorem confTrans {dir : Dir} {lk : Lookups} {h : Heap} {stF : ConvState}
    (hok : lookOK lk = true) (hIF : INV dir lk h stF []) :
    ∀ n : Nat,
    (∀ v w s, REL stF v w → confV dir lk h n v s = true →
      confV (dirFlip dir) lk stF.out n w s = true)
    ∧ (∀ xs ys c, RELlist stF xs ys → confList dir lk h n xs c = true →
      confList (dirFlip dir) lk stF.out n ys c = true)
    ∧ (∀ es fs ks vs, RELdict stF es fs →
      confDict dir lk h n es ks vs = true →
      confDict (dirFlip dir) lk stF.out n fs ks vs = true)
    ∧ (∀ a t, stF.memo.lookup a = Option.some (Value.ref t) →
      confObj dir lk h n a = true →
      confObj (dirFlip dir) lk stF.out n t = true)
    ∧ (∀ (srcFlds tgtFlds : List (String × Value))
        (flds : List (String × SchemaItem)),
      (∀ nm fs, (nm, fs) ∈ flds → ∃ d w', srcFlds.lookup nm = Option.some d
        ∧ tgtFlds.lookup nm = Option.some w' ∧ REL stF d w') →
      confFields dir lk h n srcFlds flds = true →
      confFields (dirFlip dir) lk stF.out n tgtFlds flds = true) := by
  intro n
  induction n with
  | zero =>
    refine ⟨fun v w s hr hc => ?_, fun xs ys c hr hc => ?_,
      fun es fs ks vs hr hc => ?_, fun a t hmem hc => ?_,
      fun srcFlds tgtFlds flds hcorr hc => ?_⟩
    · rw [confV] at hc; cases hc
    · cases hr with
      | nil => rfl
      | cons h1 h2 => rw [confList] at hc; cases hc
    · cases hr with
      | nil => rfl
      | cons h1 h2 h3 => rw [confDict] at hc; cases hc
    · rw [confObj] at hc
      cases ho : h.lookup a with
      | none => rw [ho] at hc; cases hc
      | some o =>
        rw [ho] at hc
        dsimp only at hc
        cases hos : srcSchema dir lk o.cls with
        | none => rw [hos] at hc; cases hc
        | some os =>
          rw [hos] at hc
          dsimp only at hc
          cases hc
    · cases flds with
      | nil => rfl
      | cons f rest =>
        obtain ⟨nm, fs⟩ := f
        rw [confFields] at hc
        cases hc
  | succ n ih =>
    obtain ⟨ihV, ihL, ihD, ihO, ihF⟩ := ih
    refine ⟨fun v w s hr hc => ?_, fun xs ys c hr hc => ?_,
      fun es fs ks vs hr hc => ?_, fun a t hmem hc => ?_,
      fun srcFlds tgtFlds flds hcorr hc => ?_⟩
    · cases hr with
      | none =>
        cases s with
        | simple k no => exact hc
        | list c => cases hc
        | dict ks vs => cases hc
        | object k => cases hc
      | int i =>
        cases s with
        | simple k no => cases k <;> first | rfl | cases hc
        | list c => cases hc
        | dict ks vs => cases hc
        | object k => cases hc
      | text str =>
        cases s with
        | simple k no => cases k <;> first | rfl | cases hc
        | list c => cases hc
        | dict ks vs => cases hc
        | object k => cases hc
      | bool b =>
        cases s with
        | simple k no => cases k <;> first | rfl | cases hc
        | list c => cases hc
        | dict ks vs => cases hc
        | object k => cases hc
      | binary bs =>
        cases s with
        | simple k no => cases k <;> first | rfl | cases hc
        | list c => cases hc
        | dict ks vs => cases hc
        | object k => cases hc
      | list hl =>
        cases s with
        | simple k no => cases hc
        | list c => exact ihL _ _ c hl hc
        | dict ks vs => cases hc
        | object k => cases hc
      | dict hd =>
        cases s with
        | simple k no => cases hc
        | list c => cases hc
        | dict ks vs =>
          have hc2 : (vKeysNodup _ && confDict dir lk h n _ ks vs) = true := hc
          rw [Bool.and_eq_true] at hc2
          show (vKeysNodup _ && confDict (dirFlip dir) lk stF.out n _ ks vs)
            = true
          rw [Bool.and_eq_true]
          exact ⟨vKeysNodup_trans hIF.2.1 hd hc2.1, ihD _ _ ks vs hd hc2.2⟩
        | object k => cases hc
      | ref hmem =>
        cases s with
        | simple k no => cases hc
        | list c => cases hc
        | dict ks vs => cases hc
        | object k => exact ihO _ _ hmem hc
    · cases hr with
      | nil => rfl
      | cons h1 h2 =>
        rw [confList, Bool.and_eq_true] at hc
        show (confV (dirFlip dir) lk stF.out n _ c
          && confList (dirFlip dir) lk stF.out n _ c) = true
        rw [Bool.and_eq_true]
        exact ⟨ihV _ _ c h1 hc.1, ihL _ _ c h2 hc.2⟩
    · cases hr with
      | nil => rfl
      | cons h1 h2 h3 =>
        rw [confDict, Bool.and_eq_true, Bool.and_eq_true] at hc
        show (confV (dirFlip dir) lk stF.out n _ ks
          && confV (dirFlip dir) lk stF.out n _ vs
          && confDict (dirFlip dir) lk stF.out n _ ks vs) = true
        rw [Bool.and_eq_true, Bool.and_eq_true]
        exact ⟨⟨ihV _ _ ks h1 hc.1.1, ihV _ _ vs h2 hc.1.2⟩,
          ihD _ _ ks vs h3 hc.2⟩
    · obtain ⟨t2, hw, ht2, o, ho, os, hos, tob, tc, htob, htc, hcls, hcomp⟩ :=
        hIF.1 a _ hmem
      injection hw with hte
      subst hte
      obtain ⟨hfwd, _⟩ := hcomp (List.not_mem_nil a)
      rw [confObj] at hc
      rw [ho] at hc
      dsimp only at hc
      rw [hos] at hc
      dsimp only at hc
      rw [confObj, htob]
      dsimp only
      rw [hcls, srcSchema_flip hok hos htc]
      dsimp only
      exact ihF o.fields tob.fields os.fields hfwd hc
    · cases flds with
      | nil => rfl
      | cons f rest =>
        obtain ⟨nm, fs⟩ := f
        rw [confFields] at hc
        cases hd : srcFlds.lookup nm with
        | none => rw [hd] at hc; cases hc
        | some d =>
          rw [hd] at hc
          dsimp only at hc
          rw [Bool.and_eq_true] at hc
          obtain ⟨d2, w', hd2, hw', hrel⟩ :=
            hcorr nm fs (List.mem_cons_self _ _)
          rw [hd] at hd2
          injection hd2 with hdEq
          rw [confFields, hw']
          dsimp only
          rw [Bool.and_eq_true]
          rw [← hdEq] at hrel
          exact ⟨ihV d w' fs hrel hc.1,
            ihF srcFlds tgtFlds rest
              (fun nm0 fs0 hmem0 => hcorr nm0 fs0 (List.mem_cons_of_mem _ hmem0))
              hc.2⟩

/-- Denotation transfer: under the completed invariant, the converted
image denotes (against the target heap, in the opposite direction) to the
very same tree as its source, at the same fuel. -/
theorem denoteTrans {dir : Dir} {lk : Lookups} {h : Heap} {stF : ConvState}
    (hok : lookOK lk = true) (hIF : INV dir lk h stF []) :
    ∀ n : Nat,
    (∀ v w tr, REL stF v w →
      denoteV (resolveT dir lk) h n v = Option.some tr →
      denoteV (resolveT (dirFlip dir) lk) stF.out n w = Option.some tr)
    ∧ (∀ xs ys ts, RELlist stF xs ys →
      denoteList (resolveT dir lk) h n xs = Option.some ts →
      denoteList (resolveT (dirFlip dir) lk) stF.out n ys = Option.some ts)
    ∧ (∀ es fs tes, RELdict stF es fs →
      denoteDict (resolveT dir lk) h n es = Option.some tes →
      denoteDict (resolveT (dirFlip dir) lk) stF.out n fs = Option.some tes)
    ∧ (∀ a t tr, stF.memo.lookup a = Option.some (Value.ref t) →
      denoteObj (resolveT dir lk) h n a = Option.some tr →
      denoteObj (resolveT (dirFlip dir) lk) stF.out n t = Option.some tr)
    ∧ (∀ (srcFlds tgtFlds : List (String × Value)) (names : List String)
        (tfs : List (String × VTree)),
      (∀ nm ∈ names, ∃ d w', srcFlds.lookup nm = Option.some d
        ∧ tgtFlds.lookup nm = Option.some w' ∧ REL stF d w') →
      denoteFields (resolveT dir lk) h n srcFlds names = Option.some tfs →
      denoteFields (resolveT (dirFlip dir) lk) stF.out n tgtFlds names
        = Option.some tfs) := by
  intro n
  induction n with
  | zero =>
    refine ⟨fun v w tr hr hden => ?_, fun xs ys ts hr hden => ?_,
      fun es fs tes hr hden => ?_, fun a t tr hmem hden => ?_,
      fun srcFlds tgtFlds names tfs hcorr hden => ?_⟩
    · rw [denoteV] at hden; cases hden
    · cases hr with
      | nil => exact hden
      | cons h1 h2 => rw [denoteList] at hden; cases hden
    · cases hr with
      | nil => exact hden
      | cons h1 h2 h3 => rw [denoteDict] at hden; cases hden
    · rw [denoteObj] at hden
      cases ho : h.lookup a with
      | none => rw [ho] at hden; cases hden
      | some o =>
        rw [ho] at hden
        dsimp only at hden
        cases hres : resolveT dir lk o.cls with
        | none => rw [hres] at hden; cases hden
        | some p =>
          obtain ⟨tag, names⟩ := p
          rw [hres] at hden
          dsimp only at hden
          cases hden
    · cases names with
      | nil => exact hden
      | cons nm names => rw [denoteFields] at hden; cases hden
  | succ n ih =>
    obtain ⟨ihV, ihL, ihD, ihO, ihF⟩ := ih
    refine ⟨fun v w tr hr hden => ?_, fun xs ys ts hr hden => ?_,
      fun es fs tes hr hden => ?_, fun a t tr hmem hden => ?_,
      fun srcFlds tgtFlds names tfs hcorr hden => ?_⟩
    · cases hr with
      | none => exact hden
      | int i => exact hden
      | text str => exact hden
      | bool b => exact hden
      | binary bs => exact hden
      | list hl =>
        rw [denoteV] at hden
        cases hl2 : denoteList (resolveT dir lk) h n _ with
        | none => rw [hl2] at hden; cases hden
        | some ts1 =>
          rw [hl2] at hden
          dsimp only at hden
          rw [denoteV, ihL _ _ ts1 hl hl2]
          exact hden
      | dict hd =>
        rw [denoteV] at hden
        cases hd2 : denoteDict (resolveT dir lk) h n _ with
        | none => rw [hd2] at hden; cases hden
        | some tes1 =>
          rw [hd2] at hden
          dsimp only at hden
          rw [denoteV, ihD _ _ tes1 hd hd2]
          exact hden
      | ref hmem => exact ihO _ _ tr hmem hden
    · cases hr with
      | nil => exact hden
      | cons h1 h2 =>
        rw [denoteList] at hden
        cases hv : denoteV (resolveT dir lk) h n _ with
        | none => rw [hv] at hden; cases hden
        | some t1 =>
          cases hrest : denoteList (resolveT dir lk) h n _ with
          | none => rw [hv, hrest] at hden; cases hden
          | some ts1 =>
            rw [hv, hrest] at hden
            dsimp only at hden
            rw [denoteList, ihV _ _ t1 h1 hv, ihL _ _ ts1 h2 hrest]
            exact hden
    · cases hr with
      | nil => exact hden
      | cons h1 h2 h3 =>
        rw [denoteDict] at hden
        cases hk : denoteV (resolveT dir lk) h n _ with
        | none => rw [hk] at hden; cases hden
        | some tk =>
          cases hv : denoteV (resolveT dir lk) h n _ with
          | none => rw [hk, hv] at hden; cases hden
          | some tv =>
            cases hrest : denoteDict (resolveT dir lk) h n _ with
            | none => rw [hk, hv, hrest] at hden; cases hden
            | some tes1 =>
              rw [hk, hv, hrest] at hden
              dsimp only at hden
              rw [denoteDict, ihV _ _ tk h1 hk, ihV _ _ tv h2 hv,
                ihD _ _ tes1 h3 hrest]
              exact hden
    · obtain ⟨t2, hw, ht2, o, ho, os, hos, tob, tc, htob, htc, hcls, hcomp⟩ :=
        hIF.1 a _ hmem
      injection hw with hte
      subst hte
      obtain ⟨hfwd, _⟩ := hcomp (List.not_mem_nil a)
      rw [denoteObj] at hden
      rw [ho] at hden
      dsimp only at hden
      rw [resolveT_eq hos] at hden
      dsimp only at hden
      cases hfs : denoteFields (resolveT dir lk) h n o.fields
          (os.fields.map Prod.fst) with
      | none => rw [hfs] at hden; cases hden
      | some tfs =>
        rw [hfs] at hden
        dsimp only at hden
        have hcorr : ∀ nm ∈ os.fields.map Prod.fst,
            ∃ d w', o.fields.lookup nm = Option.some d
              ∧ tob.fields.lookup nm = Option.some w' ∧ REL stF d w' := by
          intro nm hnm
          obtain ⟨q, hq, hfst⟩ := List.mem_map.mp hnm
          obtain ⟨nm0, fs0⟩ := q
          have hnmEq : nm0 = nm := hfst
          rw [← hnmEq]
          exact hfwd nm0 fs0 hq
        rw [denoteObj, htob]
        dsimp only
        rw [hcls, resolveT_eq (srcSchema_flip hok hos htc)]
        dsimp only
        rw [ihF o.fields tob.fields (os.fields.map Prod.fst) tfs hcorr hfs]
        exact hden
    · cases names with
      | nil => exact hden
      | cons nm names =>
        rw [denoteFields] at hden
        cases hd : srcFlds.lookup nm with
        | none => rw [hd] at hden; cases hden
        | some d =>
          rw [hd] at hden
          dsimp only at hden
          obtain ⟨d2, w', hd2, hw', hrel⟩ := hcorr nm (List.mem_cons_self _ _)
          rw [hd] at hd2
          injection hd2 with hdEq
          rw [← hdEq] at hrel
          cases hv : denoteV (resolveT dir lk) h n d with
          | none => rw [hv] at hden; cases hden
          | some t1 =>
            cases hrest : denoteFields (resolveT dir lk) h n srcFlds names with
            | none => rw [hv, hrest] at hden; cases hden
            | some tfs1 =>
              rw [hv, hrest] at hden
              dsimp only at hden
              rw [denoteFields, hw']
              dsimp only
              rw [ihV d w' t1 hrel hv,
                ihF srcFlds tgtFlds names tfs1
                  (fun nm0 hm0 => hcorr nm0 (List.mem_cons_of_mem _ hm0))
                  hrest]
              exact hden

/-- The produced target heap admits a strictly decreasing rank of its own:
each target object's references point at targets of strictly smaller
source rank. -/
theorem exists_target_rank {dir : Dir} {lk : Lookups} {h : Heap}
    {st : ConvState} (rank : Addr → Nat) (hI : INV dir lk h st [])
    (hrank : ∀ a o, h.lookup a = Option.some o →
      ∀ b ∈ refsOfFields o.fields, rank b < rank a) :
    ∃ rank2 : Addr → Nat, ∀ t tob, st.out.lookup t = Option.some tob →
      ∀ u ∈ refsOfFields tob.fields, rank2 u < rank2 t := by
  classical
  refine ⟨fun t =>
    if hex : ∃ a, st.memo.lookup a = Option.some (Value.ref t) then
      rank (Exists.choose hex)
    else 0, ?_⟩
  have hkey : ∀ c u, st.memo.lookup c = Option.some (Value.ref u) →
      (if hex : ∃ a, st.memo.lookup a = Option.some (Value.ref u) then
        rank (Exists.choose hex)
      else 0) = rank c := by
    intro c u hc
    rw [dif_pos ⟨c, hc⟩]
    have hspec := Exists.choose_spec
      (⟨c, hc⟩ : ∃ a, st.memo.lookup a = Option.some (Value.ref u))
    have hEq := hI.2.1 _ c _ hspec hc
    rw [hEq]
  intro t tob htob u hu
  obtain ⟨a, hat⟩ := hI.2.2.2.2 t tob htob
  obtain ⟨t2, hw, ht2, o, ho, os, hos, tob2, tc, htob2, htc, hcls, hcomp⟩ :=
    hI.1 a _ hat
  injection hw with hte
  subst hte
  rw [htob] at htob2
  injection htob2 with htobEq
  obtain ⟨_, hbwd⟩ := hcomp (List.not_mem_nil a)
  rw [← htobEq] at hbwd
  obtain ⟨p, hp, hup⟩ := refsOfFields_mem hu
  obtain ⟨d, hd, hrel⟩ := hbwd p hp
  obtain ⟨c, hcd, hcu⟩ := refsREL hrel u hup
  have hcf : c ∈ refsOfFields o.fields := refsOf_lookup_subset hd c hcd
  have hlt : rank c < rank a := hrank a o ho c hcf
  show (if hex : ∃ b, st.memo.lookup b = Option.some (Value.ref u) then
      rank (Exists.choose hex)
    else 0)
    < (if hex : ∃ b, st.memo.lookup b = Option.some (Value.ref t) then
      rank (Exists.choose hex)
    else 0)
  rw [hkey c u hcu, hkey a t hat]
  exact hlt

/-- With conforming roots, `prepareObjectList` succeeds, keeps every root
(in order), and pairs each with an object schema node. -/
theorem prepare_ok {dir : Dir} {lk : Lookups} {h : Heap}
    (hok : lookOK lk = true) (n : Nat) :
    ∀ roots, rootsOK dir lk h n roots = true →
      ∃ pairs, prepareObjectList dir lk h roots = Except.ok pairs
        ∧ pairs.map Prod.fst = roots
        ∧ ∀ p ∈ pairs, ∃ a k, p.1 = Value.ref a ∧ p.2 = SchemaItem.object k
            ∧ confObj dir lk h n a = true := by
  intro roots
  induction roots with
  | nil =>
    intro _
    exact ⟨[], rfl, rfl, fun p hp => absurd hp (List.not_mem_nil p)⟩
  | cons v rest ih =>
    intro hroots
    cases v with
    | none => exact absurd hroots (fun hF => by cases hF)
    | int i => exact absurd hroots (fun hF => by cases hF)
    | text str => exact absurd hroots (fun hF => by cases hF)
    | bool b => exact absurd hroots (fun hF => by cases hF)
    | binary bs => exact absurd hroots (fun hF => by cases hF)
    | list xs => exact absurd hroots (fun hF => by cases hF)
    | dict es => exact absurd hroots (fun hF => by cases hF)
    | ref a =>
      rw [rootsOK, Bool.and_eq_true] at hroots
      obtain ⟨pairs, hp, hmap, hprop⟩ := ih hroots.2
      have hconf : confObj dir lk h n a = true := hroots.1
      have hconf2 := hconf
      rw [confObj] at hconf2
      cases ho : h.lookup a with
      | none => rw [ho] at hconf2; cases hconf2
      | some o =>
        rw [ho] at hconf2
        dsimp only at hconf2
        cases hos : srcSchema dir lk o.cls with
        | none => rw [hos] at hconf2; cases hconf2
        | some os =>
          cases dir with
          | save =>
            have hcts : lk.classesToStrings.lookup o.cls
                = Option.some os.classString := by
              rw [srcSchema] at hos
              exact (lookOK_osl hok o.cls os hos).2.2.1
            refine ⟨(Value.ref a, SchemaItem.object o.cls) :: pairs,
              ?_, ?_, ?_⟩
            · rw [prepareObjectList]
              rw [hp]
              dsimp only
              rw [ho]
              dsimp only
              rw [hcts]
              rfl
            · rw [List.map_cons, hmap]
            · intro p hp2
              rcases List.mem_cons.mp hp2 with hEq | hmem
              · rw [hEq]
                exact ⟨a, o.cls, rfl, rfl, hconf⟩
              · exact hprop p hmem
          | restore =>
            rw [srcSchema] at hos
            cases hstc : lk.stringsToClasses.lookup o.cls with
            | none => rw [hstc] at hos; cases hos
            | some klass =>
              refine ⟨(Value.ref a, SchemaItem.object klass) :: pairs,
                ?_, ?_, ?_⟩
              · rw [prepareObjectList]
                rw [ho]
                dsimp only
                rw [hstc]
                dsimp only
                rw [hp]
              · rw [List.map_cons, hmap]
              · intro p hp2
                rcases List.mem_cons.mp hp2 with hEq | hmem
                · rw [hEq]
                  exact ⟨a, klass, rfl, rfl, hconf⟩
                · exact hprop p hmem

/-- The conversion loop of `convertObjectList` succeeds on prepared
conforming pairs, and its outputs are pointwise `REL`-related to the
inputs. -/
theorem convertLoop_main {dir : Dir} {lk : Lookups} {h : Heap}
    {rank : Addr → Nat} (hok : lookOK lk = true)
    (hrank : ∀ a o, h.lookup a = Option.some o →
      ∀ b ∈ refsOfFields o.fields, rank b < rank a) (n : Nat) :
    ∀ (pairs : List (Value × SchemaItem)) (st : ConvState),
      INV dir lk h st [] →
      (∀ p ∈ pairs, ∃ a k, p.1 = Value.ref a ∧ p.2 = SchemaItem.object k
        ∧ confObj dir lk h n a = true) →
      ∃ ws stF, convertLoop dir lk h (n + 1) st pairs = Except.ok (ws, stF)
        ∧ INV dir lk h stF [] ∧ Extends st stF
        ∧ RELlist stF (pairs.map Prod.fst) ws := by
  intro pairs
  induction pairs with
  | nil =>
    intro st hI _
    exact ⟨[], st, rfl, hI, extends_refl st, RELlist.nil⟩
  | cons p rest ih =>
    intro st hI hprop
    obtain ⟨a, k, hp1, hp2, hconf⟩ := hprop p (List.mem_cons_self _ _)
    obtain ⟨v, s⟩ := p
    have hv : v = Value.ref a := hp1
    have hs : s = SchemaItem.object k := hp2
    subst hv
    subst hs
    obtain ⟨w, st1, hd1, hI1, hext1, hr1⟩ :=
      (convert_main hok hrank (n + 1)).1 st [] (Value.ref a)
        (SchemaItem.object k) (render (Value.ref a)) hI
        (fun b hb => absurd hb (List.not_mem_nil b)) hconf
    obtain ⟨ws, stF, hbody, hIF, hextF, hrl⟩ := ih st1 hI1
      (fun q hq => hprop q (List.mem_cons_of_mem _ hq))
    refine ⟨w :: ws, stF, ?_, hIF, extends_trans hext1 hextF,
      RELlist.cons (REL_mono hextF.2.1 hr1) hrl⟩
    rw [convertLoop]
    rw [hd1]
    dsimp only
    rw [hbody]

/-- `convertObjectList` on conforming roots: success, invariant, and
pointwise correspondence. -/
theorem convertObjectList_main {dir : Dir} {lk : Lookups} {h : Heap}
    {rank : Addr → Nat} (hok : lookOK lk = true)
    (hrank : ∀ a o, h.lookup a = Option.some o →
      ∀ b ∈ refsOfFields o.fields, rank b < rank a) (n : Nat)
    (roots : List Value) (hroots : rootsOK dir lk h n roots = true) :
    ∃ ws stF, convertObjectList dir lk h (n + 1) roots
        = Except.ok (ws, stF.out)
      ∧ INV dir lk h stF [] ∧ RELlist stF roots ws := by
  obtain ⟨pairs, hprep, hmap, hprop⟩ := prepare_ok hok n roots hroots
  obtain ⟨ws, stF, hloop, hIF, _, hrl⟩ :=
    convertLoop_main hok hrank n pairs { memo := [], out := [], ctr := 0 }
      (INV_empty dir lk h []) hprop
  refine ⟨ws, stF, ?_, hIF, by rw [← hmap]; exact hrl⟩
  rw [convertObjectList, hprep]
  dsimp only
  rw [hloop]

/-- Root conformance transfers across the conversion. -/
theorem rootsOK_trans {dir : Dir} {lk : Lookups} {h : Heap} {stF : ConvState}
    (hok : lookOK lk = true) (hIF : INV dir lk h stF []) (n : Nat) :
    ∀ {roots ws : List Value}, RELlist stF roots ws →
      rootsOK dir lk h n roots = true →
      rootsOK (dirFlip dir) lk stF.out n ws = true := by
  intro roots
  induction roots with
  | nil =>
    intro ws hrl _
    cases hrl
    rfl
  | cons x roots ih =>
    intro ws hrl hro
    cases hrl with
    | cons h1 h2 =>
      cases h1 with
      | none => exact absurd hro (fun hF => by cases hF)
      | int i => exact absurd hro (fun hF => by cases hF)
      | text str => exact absurd hro (fun hF => by cases hF)
      | bool b => exact absurd hro (fun hF => by cases hF)
      | binary bs => exact absurd hro (fun hF => by cases hF)
      | list hl => exact absurd hro (fun hF => by cases hF)
      | dict hd => exact absurd hro (fun hF => by cases hF)
      | ref hmem =>
        rw [rootsOK, Bool.and_eq_true] at hro
        show (confObj (dirFlip dir) lk stF.out n _
          && rootsOK (dirFlip dir) lk stF.out n _) = true
        rw [Bool.and_eq_true]
        exact ⟨(confTrans hok hIF n).2.2.2.1 _ _ hmem hro.1, ih h2 hro.2⟩

/-- Forest denotation transfers across the conversion. -/
theorem denoteForest_trans {dir : Dir} {lk : Lookups} {h : Heap}
    {stF : ConvState} (hok : lookOK lk = true) (hIF : INV dir lk h stF [])
    (n : Nat) :
    ∀ {roots ws : List Value} {trees : List VTree}, RELlist stF roots ws →
      denoteForest (resolveT dir lk) h n roots = Option.some trees →
      denoteForest (resolveT (dirFlip dir) lk) stF.out n ws
        = Option.some trees := by
  intro roots
  induction roots with
  | nil =>
    intro ws trees hrl hden
    cases hrl
    exact hden
  | cons x roots ih =>
    intro ws trees hrl hden
    cases hrl with
    | cons h1 h2 =>
      rw [denoteForest] at hden
      cases hv : denoteV (resolveT dir lk) h n x with
      | none => rw [hv] at hden; cases hden
      | some t1 =>
        cases hrest : denoteForest (resolveT dir lk) h n roots with
        | none => rw [hv, hrest] at hden; cases hden
        | some ts1 =>
          rw [hv, hrest] at hden
          dsimp only at hden
          rw [denoteForest, (denoteTrans hok hIF n).1 _ _ t1 h1 hv,
            ih h2 hrest]
          exact hden

/-- C2.  Round trip: for every acyclic object graph (certified by a
strictly decreasing rank) whose roots conform to a valid explicit schema
set, `restoreObjectList` after `saveObjectList` succeeds and produces a
graph structurally equal to the original field by field: both denote the
same trees (scalars equal, lists equal in order and length, mappings with
equal entry sequences, objects tagged by the same class with the same
schema fields). -/
theorem spec_c2 (oss : List ObjectSchema) (h : Heap) (roots : List Value)
    (rank : Addr → Nat) (n : Nat) (trees : List VTree)
    (hok : lookOK (buildLookups oss) = true)
    (hacy : rankOKb h rank = true)
    (hroots : rootsOK Dir.save (buildLookups oss) h n roots = true)
    (hden : denoteForest (resolveT Dir.save (buildLookups oss)) h n roots
      = Option.some trees) :
    ∃ roots2 f roots3 h2,
      saveObjectList (n + 1) h roots (Option.some oss)
        = Except.ok (roots2, f)
      ∧ restoreObjectList (n + 1) f roots2 (Option.some oss)
          = Except.ok (roots3, h2)
      ∧ denoteForest (resolveT Dir.save (buildLookups oss)) h2 n roots3
          = Option.some trees := by
  have hrank := rankOKb_spec hacy
  obtain ⟨ws, stF, hsave, hIF, hrl⟩ :=
    convertObjectList_main hok hrank n roots hroots
  have hroots2 : rootsOK Dir.restore (buildLookups oss) stF.out n ws
      = true := rootsOK_trans hok hIF n hrl hroots
  obtain ⟨rank2, hrank2⟩ := exists_target_rank rank hIF hrank
  obtain ⟨us, stG, hrest, hIG, hrl2⟩ :=
    convertObjectList_main hok hrank2 n ws hroots2
  have hden2 : denoteForest (resolveT Dir.restore (buildLookups oss))
      stF.out n ws = Option.some trees :=
    denoteForest_trans hok hIF n hrl hden
  have hden3 : denoteForest (resolveT Dir.save (buildLookups oss))
      stG.out n us = Option.some trees :=
    denoteForest_trans hok hIG n hrl2 hden2
  refine ⟨ws, stF.out, us, stG.out, ?_, ?_, hden3⟩
  · exact hsave
  · exact hrest

/-- A one-object live heap for the round-trip witness. -/
def c2Heap : Heap :=
  [(0, { cls := "Point",
         fields := [("x", Value.int 3), ("y", Value.int 4)] })]

/-- Its denotation tree. -/
def c2Tree : VTree :=
  VTree.obj "point" [("x", VTree.int 3), ("y", VTree.int 4)]

/-- C2 witness: the hypotheses hold for a concrete one-point graph, and
the round trip through `saveObjectList`/`restoreObjectList` exists with
the same denotation. -/
theorem spec_c2_witness :
    (lookOK (buildLookups [osPoint]) = true
      ∧ rankOKb c2Heap (fun _ => 0) = true
      ∧ rootsOK Dir.save (buildLookups [osPoint]) c2Heap 5 [Value.ref 0]
          = true
      ∧ denoteForest (resolveT Dir.save (buildLookups [osPoint])) c2Heap 5
          [Value.ref 0] = Option.some [c2Tree])
    ∧ ∃ roots2 f roots3 h2,
        saveObjectList 6 c2Heap [Value.ref 0] (Option.some [osPoint])
          = Except.ok (roots2, f)
        ∧ restoreObjectList 6 f roots2 (Option.some [osPoint])
            = Except.ok (roots3, h2)
        ∧ denoteForest (resolveT Dir.save (buildLookups [osPoint])) h2 5
            roots3 = Option.some [c2Tree] :=
  ⟨⟨by decide, by decide, by decide, rfl⟩,
    spec_c2 [osPoint] c2Heap [Value.ref 0] (fun _ => 0) 5 [c2Tree]
      (by decide) (by decide) (by decide) rfl⟩
